import Mathlib

/-!
Verification of the trie autocomplete index (`src/trie.py`).

Shallow embedding: `TrieNode` mirrors the Python `TrieNode` class
(`children` is an insertion-ordered association list, matching the
insertion-ordered Python `dict`; `is_word : Bool`; `freq : ℚ` models the
float score, which the program only negates and compares).  `Trie` carries
the root node and the `_words` / `_nodes` counters (as `ℤ`, matching
Python's unbounded ints).  Mutating methods become state-passing
functions; words are `List Char`.
-/

set_option maxHeartbeats 1000000

inductive TrieNode : Type where
  | mk (children : List (Char × TrieNode)) (is_word : Bool) (freq : ℚ)

namespace TrieNode

def children : TrieNode → List (Char × TrieNode)
  | ⟨cs, _, _⟩ => cs

def is_word : TrieNode → Bool
  | ⟨_, b, _⟩ => b

def freq : TrieNode → ℚ
  | ⟨_, _, f⟩ => f

@[simp] theorem children_mk (cs : List (Char × TrieNode)) (b : Bool) (f : ℚ) :
    children ⟨cs, b, f⟩ = cs := rfl

@[simp] theorem is_word_mk (cs : List (Char × TrieNode)) (b : Bool) (f : ℚ) :
    is_word ⟨cs, b, f⟩ = b := rfl

@[simp] theorem freq_mk (cs : List (Char × TrieNode)) (b : Bool) (f : ℚ) :
    freq ⟨cs, b, f⟩ = f := rfl

theorem eta : ∀ n : TrieNode, (⟨n.children, n.is_word, n.freq⟩ : TrieNode) = n
  | ⟨_, _, _⟩ => rfl

/-- A fresh node, as built by `TrieNode.__init__`: no children, not a word,
frequency `0.0`. -/
def fresh : TrieNode := ⟨[], false, 0⟩

end TrieNode

/-- `c in node.children` / `node.children[c]` on the insertion-ordered dict:
find the (unique, in states the program builds) entry with key `c`. -/
def assocFind (c : Char) : List (Char × TrieNode) → Option TrieNode
  | [] => none
  | (c', n) :: rest => if c' = c then some n else assocFind c rest

/-- `node.children[c] = v` when `c` is already a key: replace the first
entry for `c`, keeping the dict's insertion order. -/
def assocSet (c : Char) (v : TrieNode) : List (Char × TrieNode) → List (Char × TrieNode)
  | [] => []
  | (c', n) :: rest => if c' = c then (c', v) :: rest else (c', n) :: assocSet c v rest

/-- `del node.children[c]`: remove the first entry for `c`. -/
def assocErase (c : Char) : List (Char × TrieNode) → List (Char × TrieNode)
  | [] => []
  | (c', n) :: rest => if c' = c then rest else (c', n) :: assocErase c rest

namespace TrieNode

/-- The walking loop of `Trie.insert`, made functional.  Returns the updated
node, the number of nodes created (`self._nodes` increments), and whether the
landed node was already a word (`node.is_word` before the final assignment,
which decides the `self._words` increment). -/
def insertGo : TrieNode → List Char → ℚ → TrieNode × ℕ × Bool
  | n, [], f => (⟨n.children, true, f⟩, 0, n.is_word)
  | n, c :: w, f =>
    match assocFind c n.children with
    | some child =>
        let r := insertGo child w f
        (⟨assocSet c r.1 n.children, n.is_word, n.freq⟩, r.2)
    | none =>
        let r := insertGo fresh w f
        (⟨n.children ++ [(c, r.1)], n.is_word, n.freq⟩, r.2.1 + 1, r.2.2)

/-- The walking loop shared by `Trie.contains` and the prefix walk of
`Trie.complete`: follow the word's symbols, `none` when an edge is missing. -/
def find? : TrieNode → List Char → Option TrieNode
  | n, [] => some n
  | n, c :: w =>
    match assocFind c n.children with
    | none => none
    | some child => find? child w

/-- The recursive `_remove` helper of `Trie.remove`.  Returns the updated
node, the `should_delete` flag reported to the parent, the `removed` flag,
and the number of nodes deleted in this subtree (`self._nodes` decrements). -/
def removeGo : TrieNode → List Char → TrieNode × Bool × Bool × ℕ
  | n, [] =>
    if n.is_word then
      (⟨n.children, false, 0⟩, n.children.isEmpty, true, 0)
    else
      (n, false, false, 0)
  | n, c :: w =>
    match assocFind c n.children with
    | none => (n, false, false, 0)
    | some child =>
      let r := removeGo child w
      if r.2.1 then
        let cs := assocErase c n.children
        (⟨cs, n.is_word, n.freq⟩, !n.is_word && cs.isEmpty, r.2.2.1, r.2.2.2 + 1)
      else
        (⟨assocSet c r.1 n.children, n.is_word, n.freq⟩, false, r.2.2.1, r.2.2.2)

end TrieNode

mutual

/-- The `dfs` of `Trie.complete`: preorder collection of `(-freq, word)`
pairs for every word in the subtree, children in stored (insertion) order. -/
def TrieNode.collect : TrieNode → List Char → List (ℚ × List Char)
  | ⟨cs, isw, f⟩, path =>
    (if isw then [(-f, path)] else []) ++ TrieNode.collectList cs path

def TrieNode.collectList : List (Char × TrieNode) → List Char → List (ℚ × List Char)
  | [], _ => []
  | (c, child) :: rest, path =>
      TrieNode.collect child (path ++ [c]) ++ TrieNode.collectList rest path

end

mutual

/-- The `dfs` of `Trie.items`: preorder collection of `(word, freq)` pairs. -/
def TrieNode.itemsGo : TrieNode → List Char → List (List Char × ℚ)
  | ⟨cs, isw, f⟩, path =>
    (if isw then [(path, f)] else []) ++ TrieNode.itemsList cs path

def TrieNode.itemsList : List (Char × TrieNode) → List Char → List (List Char × ℚ)
  | [], _ => []
  | (c, child) :: rest, path =>
      TrieNode.itemsGo child (path ++ [c]) ++ TrieNode.itemsList rest path

end

mutual

/-- The `height` helper of `Trie.stats`: `1` for a childless node, else
`1 + max(height(c) for c in children)`. -/
def TrieNode.height : TrieNode → ℕ
  | ⟨cs, _, _⟩ =>
    match cs with
    | [] => 1
    | c :: rest => 1 + TrieNode.heightList (c :: rest)

/-- `max(height(c) for c in children)`; `0` for the empty list, which the
caller never reaches (heights are positive, so the `max` is unaffected). -/
def TrieNode.heightList : List (Char × TrieNode) → ℕ
  | [] => 0
  | (_, child) :: rest => max child.height (TrieNode.heightList rest)

end

/-- Python string `<` (lexicographic by code point), on `List Char`. -/
def strLt : List Char → List Char → Bool
  | [], [] => false
  | [], _ :: _ => true
  | _ :: _, [] => false
  | a :: as, b :: bs => a < b || (a = b && strLt as bs)

/-- Python tuple `<` on the `(-freq, word)` sort keys of `complete`. -/
def keyLt (x y : ℚ × List Char) : Bool :=
  x.1 < y.1 || (x.1 = y.1 && strLt x.2 y.2)

/-- The total order `list.sort()` sorts by: `x ≤ y` iff `¬ y < x`. -/
def keyLe (x y : ℚ × List Char) : Bool := !(keyLt y x)

/-- Insert `x` into a sorted list, before the first element it is `le` to;
ties keep the incoming (originally earlier) element first, giving the same
stable behaviour as Python's `list.sort()`. -/
def insortBy {α : Type} (le : α → α → Bool) (x : α) : List α → List α
  | [] => [x]
  | y :: ys => if le x y then x :: y :: ys else y :: insortBy le x ys

/-- `heap.sort()`: Python's stable ascending sort (by tuple `<` on the
`(-freq, word)` keys), realized as a stable insertion sort — for the total
preorder `keyLe` both produce the unique stable ascending reordering. -/
def pySort {α : Type} (le : α → α → Bool) : List α → List α
  | [] => []
  | x :: xs => insortBy le x (pySort le xs)

/-- Python's slice `l[:k]`: first `k` elements for `k ≥ 0`, all but the
last `|k|` elements for negative `k` (clamped at empty). -/
def pySlice {α : Type} (k : ℤ) (l : List α) : List α :=
  if 0 ≤ k then l.take k.toNat else l.take (l.length - (-k).toNat)

structure Trie : Type where
  root : TrieNode
  words : ℤ
  nodes : ℤ

namespace Trie

/-- `Trie.__init__`: a fresh root, `_words = 0`, `_nodes = 1`. -/
def fresh : Trie := ⟨TrieNode.fresh, 0, 1⟩

/-- `Trie.insert`. -/
def insert (t : Trie) (w : List Char) (f : ℚ) : Trie :=
  let r := t.root.insertGo w f
  ⟨r.1, if r.2.2 then t.words else t.words + 1, t.nodes + r.2.1⟩

/-- `Trie.contains`. -/
def contains (t : Trie) (w : List Char) : Bool :=
  match t.root.find? w with
  | none => false
  | some n => n.is_word

/-- `Trie.remove`: the returned boolean together with the new state. -/
def remove (t : Trie) (w : List Char) : Bool × Trie :=
  let r := t.root.removeGo w
  (r.2.2.1, ⟨r.1, if r.2.2.1 then t.words - 1 else t.words, t.nodes - r.2.2.2⟩)

/-- `Trie.complete`: walk to the prefix node, collect the subtree's
`(-freq, word)` pairs, sort, slice to `k`, keep the words. -/
def complete (t : Trie) (p : List Char) (k : ℤ) : List (List Char) :=
  match t.root.find? p with
  | none => []
  | some n =>
    let heap := n.collect p
    (pySlice k (pySort keyLe heap)).map Prod.snd

/-- `Trie.stats`: the two counters plus the computed height. -/
def stats (t : Trie) : ℤ × ℕ × ℤ := (t.words, t.root.height, t.nodes)

/-- `Trie.items`. -/
def items (t : Trie) : List (List Char × ℚ) := t.root.itemsGo []

end Trie

/-- The weight the trie associates to a word below a node: follow the path
and read `freq` if the landed node is a word.  This is the abstract
"dictionary" view the specification reasons with. -/
def TrieNode.weightOf (n : TrieNode) (w : List Char) : Option ℚ :=
  match n.find? w with
  | none => none
  | some m => if m.is_word then some m.freq else none

/-- `weightOf` read at the root. -/
def Trie.weightOf (t : Trie) (w : List Char) : Option ℚ := t.root.weightOf w

/-- The `(-freq, word)` pairs `complete` collects for a prefix: empty when
the prefix walk fails, else the subtree's preorder collection. -/
def Trie.matchKeys (t : Trie) (p : List Char) : List (ℚ × List Char) :=
  match t.root.find? p with
  | none => []
  | some n => n.collect p

/-- The fully sorted match list of a prefix (what `complete` slices). -/
def Trie.sortedMatches (t : Trie) (p : List Char) : List (List Char) :=
  (pySort keyLe (t.matchKeys p)).map Prod.snd

/-- The descending-weight / ascending-word order the spec requires between
two output words of `complete`, read off the trie's stored weights. -/
def Trie.rankLt (t : Trie) (w₁ w₂ : List Char) : Prop :=
  ∃ f₁ f₂, t.weightOf w₁ = some f₁ ∧ t.weightOf w₂ = some f₂ ∧
    (f₂ < f₁ ∨ (f₁ = f₂ ∧ strLt w₁ w₂ = true))

mutual

/-- Well-formedness every Python state enjoys because `children` is a
`dict`: at every node the child keys are distinct. -/
def TrieNode.wfB : TrieNode → Bool
  | ⟨cs, _, _⟩ => decide ((cs.map Prod.fst).Nodup) && TrieNode.wfListB cs

def TrieNode.wfListB : List (Char × TrieNode) → Bool
  | [] => true
  | (_, child) :: rest => TrieNode.wfB child && TrieNode.wfListB rest

end

mutual

/-- The pruning invariant for a non-root subtree: the node is a word or has
children, recursively. -/
def TrieNode.goodB : TrieNode → Bool
  | ⟨cs, isw, _⟩ => (isw || !cs.isEmpty) && TrieNode.goodListB cs

def TrieNode.goodListB : List (Char × TrieNode) → Bool
  | [] => true
  | (_, child) :: rest => TrieNode.goodB child && TrieNode.goodListB rest

end

mutual

/-- Number of nodes in a subtree (the node itself included). -/
def TrieNode.size : TrieNode → ℕ
  | ⟨cs, _, _⟩ => 1 + TrieNode.sizeList cs

def TrieNode.sizeList : List (Char × TrieNode) → ℕ
  | [] => 0
  | (_, child) :: rest => TrieNode.size child + TrieNode.sizeList rest

end

mutual

/-- Number of word (terminal) nodes in a subtree. -/
def TrieNode.countW : TrieNode → ℕ
  | ⟨cs, isw, _⟩ => (if isw then 1 else 0) + TrieNode.countWList cs

def TrieNode.countWList : List (Char × TrieNode) → ℕ
  | [] => 0
  | (_, child) :: rest => TrieNode.countW child + TrieNode.countWList rest

end

mutual

/-- State-passing form of `complete`'s `dfs`: the Python code walks the
node graph while holding mutable references, so the embedding threads every
visited node back out.  The returned node is what the traversal leaves in
the tree. -/
def TrieNode.collectS : TrieNode → List Char → List (ℚ × List Char) × TrieNode
  | ⟨cs, isw, f⟩, path =>
    let r := TrieNode.collectListS cs path
    ((if isw then [(-f, path)] else []) ++ r.1, ⟨r.2, isw, f⟩)

def TrieNode.collectListS :
    List (Char × TrieNode) → List Char → List (ℚ × List Char) × List (Char × TrieNode)
  | [], _ => ([], [])
  | (c, child) :: rest, path =>
    let rc := TrieNode.collectS child (path ++ [c])
    let rr := TrieNode.collectListS rest path
    (rc.1 ++ rr.1, (c, rc.2) :: rr.2)

end

mutual

/-- State-passing form of `items`' `dfs`. -/
def TrieNode.itemsGoS : TrieNode → List Char → List (List Char × ℚ) × TrieNode
  | ⟨cs, isw, f⟩, path =>
    let r := TrieNode.itemsListS cs path
    ((if isw then [(path, f)] else []) ++ r.1, ⟨r.2, isw, f⟩)

def TrieNode.itemsListS :
    List (Char × TrieNode) → List Char → List (List Char × ℚ) × List (Char × TrieNode)
  | [], _ => ([], [])
  | (c, child) :: rest, path =>
    let rc := TrieNode.itemsGoS child (path ++ [c])
    let rr := TrieNode.itemsListS rest path
    (rc.1 ++ rr.1, (c, rc.2) :: rr.2)

end

mutual

/-- State-passing form of `stats`' `height`. -/
def TrieNode.heightS : TrieNode → ℕ × TrieNode
  | ⟨cs, isw, f⟩ =>
    match cs with
    | [] => (1, ⟨cs, isw, f⟩)
    | c :: rest =>
      let r := TrieNode.heightListS (c :: rest)
      (1 + r.1, ⟨r.2, isw, f⟩)

def TrieNode.heightListS : List (Char × TrieNode) → ℕ × List (Char × TrieNode)
  | [] => (0, [])
  | (c, child) :: rest =>
    let rc := child.heightS
    let rr := TrieNode.heightListS rest
    (max rc.1 rr.1, (c, rc.2) :: rr.2)

end

namespace Trie

/-- State-passing `complete`: the prefix walk and the `dfs` thread the
visited nodes back into the tree; the second component is the state the
call leaves behind. -/
def completeGoS : TrieNode → List Char → List Char → ℤ → List (List Char) × TrieNode
  | n, [], pfx, k =>
    let r := n.collectS pfx
    ((pySlice k (pySort keyLe r.1)).map Prod.snd, r.2)
  | n, c :: p, pfx, k =>
    match assocFind c n.children with
    | none => ([], n)
    | some child =>
      let r := completeGoS child p pfx k
      (r.1, ⟨assocSet c r.2 n.children, n.is_word, n.freq⟩)

/-- `Trie.complete` with the state it leaves behind. -/
def completeS (t : Trie) (p : List Char) (k : ℤ) : List (List Char) × Trie :=
  let r := completeGoS t.root p p k
  (r.1, ⟨r.2, t.words, t.nodes⟩)

/-- `Trie.stats` with the state it leaves behind. -/
def statsS (t : Trie) : (ℤ × ℕ × ℤ) × Trie :=
  let r := t.root.heightS
  ((t.words, r.1, t.nodes), ⟨r.2, t.words, t.nodes⟩)

/-- `Trie.items` with the state it leaves behind. -/
def itemsS (t : Trie) : List (List Char × ℚ) × Trie :=
  let r := t.root.itemsGoS []
  (r.1, ⟨r.2, t.words, t.nodes⟩)

end Trie

/-- One call on the trie's public surface. -/
inductive Op : Type where
  | ins (w : List Char) (f : ℚ)
  | rem (w : List Char)
  | comp (p : List Char) (k : ℤ)
  | stat
  | itemsQ
deriving DecidableEq

/-- The state left behind by one call (queries thread their state through
the state-passing versions). -/
def Trie.applyOp (t : Trie) : Op → Trie
  | Op.ins w f => t.insert w f
  | Op.rem w => (t.remove w).2
  | Op.comp p k => (t.completeS p k).2
  | Op.stat => t.statsS.2
  | Op.itemsQ => t.itemsS.2

/-- The state after a sequence of calls. -/
def Trie.applyOps (t : Trie) (ops : List Op) : Trie := ops.foldl Trie.applyOp t

/-- Build a fresh trie by inserting a list of (word, weight) pairs in
order, as the round-trip `load`/rebuild path does. -/
def Trie.ofPairs (l : List (List Char × ℚ)) : Trie :=
  l.foldl (fun t wf => t.insert wf.1 wf.2) Trie.fresh

/-- First-match lookup in a (word, weight) pair list. -/
def pairLookup (w : List Char) : List (List Char × ℚ) → Option ℚ
  | [] => none
  | (w', f) :: rest => if w' = w then some f else pairLookup w rest


/-! ### Association-list lemmas -/

@[simp] theorem assocFind_nil (c : Char) : assocFind c [] = none := rfl

@[simp] theorem assocFind_cons (c c' : Char) (v : TrieNode) (rest : List (Char × TrieNode)) :
    assocFind c ((c', v) :: rest) = if c' = c then some v else assocFind c rest := rfl

@[simp] theorem assocSet_nil (c : Char) (v : TrieNode) : assocSet c v [] = [] := rfl

@[simp] theorem assocSet_cons (c c' : Char) (v v' : TrieNode)
    (rest : List (Char × TrieNode)) :
    assocSet c v ((c', v') :: rest) =
      if c' = c then (c', v) :: rest else (c', v') :: assocSet c v rest := rfl

@[simp] theorem assocErase_nil (c : Char) : assocErase c [] = [] := rfl

@[simp] theorem assocErase_cons (c c' : Char) (v' : TrieNode)
    (rest : List (Char × TrieNode)) :
    assocErase c ((c', v') :: rest) =
      if c' = c then rest else (c', v') :: assocErase c rest := rfl

theorem assocFind_eq_none (c : Char) (l : List (Char × TrieNode)) :
    assocFind c l = none ↔ c ∉ l.map Prod.fst := by
  induction l with
  | nil => simp
  | cons x rest ih =>
    obtain ⟨c', v⟩ := x
    by_cases h : c' = c
    · subst h
      simp
    · rw [assocFind_cons, if_neg h, List.map_cons, List.mem_cons, ih]
      constructor
      · intro hf hor
        rcases hor with h1 | h2
        · exact h h1.symm
        · exact hf h2
      · intro hall h2
        exact hall (Or.inr h2)

theorem assocFind_mem {c : Char} {l : List (Char × TrieNode)} {v : TrieNode}
    (h : assocFind c l = some v) : (c, v) ∈ l := by
  induction l with
  | nil => simp at h
  | cons x rest ih =>
    obtain ⟨c', v'⟩ := x
    by_cases hc : c' = c
    · subst hc
      rw [assocFind_cons, if_pos rfl] at h
      cases h
      exact List.mem_cons_self _ _
    · rw [assocFind_cons, if_neg hc] at h
      exact List.mem_cons_of_mem _ (ih h)

theorem assocFind_mem_keys {c : Char} {l : List (Char × TrieNode)} {v : TrieNode}
    (h : assocFind c l = some v) : c ∈ l.map Prod.fst :=
  List.mem_map.2 ⟨(c, v), assocFind_mem h, rfl⟩

theorem map_fst_assocSet (c : Char) (v : TrieNode) (l : List (Char × TrieNode)) :
    (assocSet c v l).map Prod.fst = l.map Prod.fst := by
  induction l with
  | nil => simp
  | cons x rest ih =>
    obtain ⟨c', v'⟩ := x
    by_cases h : c' = c
    · rw [assocSet_cons, if_pos h, List.map_cons, List.map_cons]
    · rw [assocSet_cons, if_neg h, List.map_cons, List.map_cons, ih]

theorem length_assocSet (c : Char) (v : TrieNode) (l : List (Char × TrieNode)) :
    (assocSet c v l).length = l.length := by
  have h := congrArg List.length (map_fst_assocSet c v l)
  rw [List.length_map, List.length_map] at h
  exact h

theorem isEmpty_assocSet (c : Char) (v : TrieNode) (l : List (Char × TrieNode)) :
    (assocSet c v l).isEmpty = l.isEmpty := by
  cases l with
  | nil => rfl
  | cons x rest =>
    obtain ⟨c', v'⟩ := x
    by_cases h : c' = c
    · rw [assocSet_cons, if_pos h, List.isEmpty_cons, List.isEmpty_cons]
    · rw [assocSet_cons, if_neg h, List.isEmpty_cons, List.isEmpty_cons]

theorem assocSet_self {c : Char} {l : List (Char × TrieNode)} {v : TrieNode}
    (h : assocFind c l = some v) : assocSet c v l = l := by
  induction l with
  | nil => simp at h
  | cons x rest ih =>
    obtain ⟨c', v'⟩ := x
    by_cases hc : c' = c
    · rw [assocFind_cons, if_pos hc] at h
      cases h
      rw [assocSet_cons, if_pos hc]
    · rw [assocFind_cons, if_neg hc] at h
      rw [assocSet_cons, if_neg hc, ih h]

theorem assocFind_assocSet_same {c : Char} {l : List (Char × TrieNode)} {v₀ : TrieNode}
    (v : TrieNode) (h : assocFind c l = some v₀) :
    assocFind c (assocSet c v l) = some v := by
  induction l with
  | nil => simp at h
  | cons x rest ih =>
    obtain ⟨c', v'⟩ := x
    by_cases hc : c' = c
    · rw [assocSet_cons, if_pos hc, assocFind_cons, if_pos hc]
    · rw [assocFind_cons, if_neg hc] at h
      rw [assocSet_cons, if_neg hc, assocFind_cons, if_neg hc, ih h]

theorem assocFind_assocSet_ne {c c' : Char} (hne : c' ≠ c) (v : TrieNode)
    (l : List (Char × TrieNode)) :
    assocFind c' (assocSet c v l) = assocFind c' l := by
  induction l with
  | nil => simp
  | cons x rest ih =>
    obtain ⟨c'', v'⟩ := x
    by_cases hc : c'' = c
    · have h2 : ¬ c'' = c' := by
        intro h
        apply hne
        rw [← h]
        exact hc
      rw [assocSet_cons, if_pos hc, assocFind_cons, if_neg h2,
        assocFind_cons, if_neg h2]
    · rw [assocSet_cons, if_neg hc, assocFind_cons, assocFind_cons, ih]

theorem assocFind_append (c c' : Char) (v : TrieNode) (l : List (Char × TrieNode)) :
    assocFind c (l ++ [(c', v)]) =
      (match assocFind c l with
        | some w => some w
        | none => if c' = c then some v else none) := by
  induction l with
  | nil => simp
  | cons x rest ih =>
    obtain ⟨c'', v'⟩ := x
    by_cases hc : c'' = c
    · rw [List.cons_append, assocFind_cons, if_pos hc, assocFind_cons, if_pos hc]
    · rw [List.cons_append, assocFind_cons, if_neg hc, assocFind_cons, if_neg hc, ih]

theorem assocErase_sublist (c : Char) (l : List (Char × TrieNode)) :
    (assocErase c l).Sublist l := by
  induction l with
  | nil => simp
  | cons x rest ih =>
    obtain ⟨c', v⟩ := x
    by_cases h : c' = c
    · rw [assocErase_cons, if_pos h]
      exact List.sublist_cons_self (c', v) rest
    · rw [assocErase_cons, if_neg h]
      exact ih.cons₂ (c', v)

theorem assocFind_assocErase_ne {c c' : Char} (hne : c' ≠ c)
    (l : List (Char × TrieNode)) :
    assocFind c' (assocErase c l) = assocFind c' l := by
  induction l with
  | nil => simp
  | cons x rest ih =>
    obtain ⟨c'', v⟩ := x
    by_cases hc : c'' = c
    · have h2 : ¬ c'' = c' := by
        intro h
        apply hne
        rw [← h]
        exact hc
      rw [assocErase_cons, if_pos hc, assocFind_cons, if_neg h2]
    · rw [assocErase_cons, if_neg hc, assocFind_cons, assocFind_cons, ih]

theorem assocFind_assocErase_self {c : Char} {l : List (Char × TrieNode)}
    (hnd : (l.map Prod.fst).Nodup) : assocFind c (assocErase c l) = none := by
  induction l with
  | nil => simp
  | cons x rest ih =>
    obtain ⟨c', v⟩ := x
    rw [List.map_cons, List.nodup_cons] at hnd
    by_cases hc : c' = c
    · rw [assocErase_cons, if_pos hc]
      exact (assocFind_eq_none c rest).2 (hc ▸ hnd.1)
    · rw [assocErase_cons, if_neg hc, assocFind_cons, if_neg hc]
      exact ih hnd.2

theorem mem_assocSet {c : Char} {v : TrieNode} {l : List (Char × TrieNode)}
    {x : Char × TrieNode} (h : x ∈ assocSet c v l) : x = (c, v) ∨ x ∈ l := by
  induction l with
  | nil => simp at h
  | cons y rest ih =>
    obtain ⟨c', v'⟩ := y
    by_cases hc : c' = c
    · rw [assocSet_cons, if_pos hc, List.mem_cons] at h
      rcases h with h | h
      · exact Or.inl (by rw [h, hc])
      · exact Or.inr (List.mem_cons_of_mem _ h)
    · rw [assocSet_cons, if_neg hc, List.mem_cons] at h
      rcases h with h | h
      · exact Or.inr (by rw [h]; exact List.mem_cons_self _ _)
      · rcases ih h with h' | h'
        · exact Or.inl h'
        · exact Or.inr (List.mem_cons_of_mem _ h')

/-! ### The comparison order of `complete` -/

@[simp] theorem strLt_nil_nil : strLt [] [] = false := rfl

@[simp] theorem strLt_nil_cons (b : Char) (bs : List Char) :
    strLt [] (b :: bs) = true := rfl

@[simp] theorem strLt_cons_nil (a : Char) (as : List Char) :
    strLt (a :: as) [] = false := rfl

@[simp] theorem strLt_cons_cons (a b : Char) (as bs : List Char) :
    strLt (a :: as) (b :: bs) = (decide (a < b) || (decide (a = b) && strLt as bs)) := rfl

theorem strLt_irrefl (a : List Char) : strLt a a = false := by
  induction a with
  | nil => rfl
  | cons x xs ih => simp [ih]

theorem strLt_trans : ∀ {a b c : List Char},
    strLt a b = true → strLt b c = true → strLt a c = true
  | [], _ :: _, _ :: _, _, _ => rfl
  | x :: xs, y :: ys, z :: zs, hab, hbc => by
    simp only [strLt_cons_cons, Bool.or_eq_true, Bool.and_eq_true,
      decide_eq_true_eq] at hab hbc ⊢
    rcases hab with h1 | ⟨h1, h1'⟩
    · rcases hbc with h2 | ⟨h2, h2'⟩
      · exact Or.inl (lt_trans h1 h2)
      · exact Or.inl (h2 ▸ h1)
    · rcases hbc with h2 | ⟨h2, h2'⟩
      · exact Or.inl (h1 ▸ h2)
      · exact Or.inr ⟨h1.trans h2, strLt_trans h1' h2'⟩

theorem strLt_connex : ∀ {a b : List Char},
    strLt a b = false → strLt b a = false → a = b
  | [], [], _, _ => rfl
  | [], _ :: _, hab, _ => by simp at hab
  | _ :: _, [], _, hba => by simp at hba
  | x :: xs, y :: ys, hab, hba => by
    simp only [strLt_cons_cons, Bool.or_eq_false_iff, Bool.and_eq_false_iff,
      decide_eq_false_iff_not] at hab hba
    have hxy : x = y := by
      rcases lt_trichotomy x y with h | h | h
      · exact absurd h hab.1
      · exact h
      · exact absurd h hba.1
    subst hxy
    rcases hab.2 with h | h
    · exact absurd rfl h
    · rcases hba.2 with h' | h'
      · exact absurd rfl h'
      · exact congrArg (x :: ·) (strLt_connex h h')

theorem strLt_asymm {a b : List Char} (h : strLt a b = true) : strLt b a = false := by
  cases hba : strLt b a
  · rfl
  · exact absurd (strLt_trans h hba) (by simp [strLt_irrefl a])

theorem keyLt_iff (x y : ℚ × List Char) :
    keyLt x y = true ↔ x.1 < y.1 ∨ (x.1 = y.1 ∧ strLt x.2 y.2 = true) := by
  simp [keyLt]

theorem keyLt_trans {x y z : ℚ × List Char}
    (h1 : keyLt x y = true) (h2 : keyLt y z = true) : keyLt x z = true := by
  rw [keyLt_iff] at h1 h2 ⊢
  rcases h1 with h1 | ⟨h1, h1'⟩
  · rcases h2 with h2 | ⟨h2, h2'⟩
    · exact Or.inl (lt_trans h1 h2)
    · exact Or.inl (h2 ▸ h1)
  · rcases h2 with h2 | ⟨h2, h2'⟩
    · exact Or.inl (h1 ▸ h2)
    · exact Or.inr ⟨h1.trans h2, strLt_trans h1' h2'⟩

theorem keyLt_connex {x y : ℚ × List Char}
    (hxy : keyLt x y = false) (hyx : keyLt y x = false) : x = y := by
  rw [← Bool.not_eq_true, keyLt_iff] at hxy hyx
  push_neg at hxy hyx
  have h1 : x.1 = y.1 := le_antisymm hyx.1 hxy.1
  have h2 : x.2 = y.2 := by
    apply strLt_connex
    · cases h : strLt x.2 y.2
      · rfl
      · exact absurd h (hxy.2 h1)
    · cases h : strLt y.2 x.2
      · rfl
      · exact absurd h (hyx.2 h1.symm)
  exact Prod.ext h1 h2

theorem keyLt_asymm {x y : ℚ × List Char} (h : keyLt x y = true) :
    keyLt y x = false := by
  cases hyx : keyLt y x
  · rfl
  · have := keyLt_trans h hyx
    rw [keyLt_iff] at this
    rcases this with h' | ⟨_, h'⟩
    · exact absurd h' (lt_irrefl _)
    · rw [strLt_irrefl] at h'
      cases h'

theorem keyLe_total (x y : ℚ × List Char) :
    keyLe x y = true ∨ keyLe y x = true := by
  unfold keyLe
  cases h : keyLt y x
  · exact Or.inl rfl
  · exact Or.inr (by rw [keyLt_asymm h]; rfl)

theorem keyLe_trans {x y z : ℚ × List Char}
    (h1 : keyLe x y = true) (h2 : keyLe y z = true) : keyLe x z = true := by
  unfold keyLe at h1 h2 ⊢
  rw [Bool.not_eq_true'] at h1 h2 ⊢
  cases hzx : keyLt z x
  · rfl
  · exfalso
    cases hxy : keyLt x y
    · have hxyeq : x = y := keyLt_connex hxy h1
      rw [hxyeq] at hzx
      rw [hzx] at h2
      cases h2
    · have := keyLt_trans hzx hxy
      rw [this] at h2
      cases h2

theorem keyLe_antisymm {x y : ℚ × List Char}
    (h1 : keyLe x y = true) (h2 : keyLe y x = true) : x = y := by
  unfold keyLe at h1 h2
  rw [Bool.not_eq_true'] at h1 h2
  exact keyLt_connex h2 h1

/-! ### Sorting lemmas -/

theorem insortBy_perm {α : Type} (le : α → α → Bool) (x : α) (l : List α) :
    (insortBy le x l).Perm (x :: l) := by
  induction l with
  | nil => exact List.Perm.refl [x]
  | cons y ys ih =>
    unfold insortBy
    by_cases h : le x y = true
    · rw [if_pos h]
    · rw [if_neg h]
      exact (ih.cons y).trans (List.Perm.swap x y ys)

theorem pySort_perm {α : Type} (le : α → α → Bool) (l : List α) :
    (pySort le l).Perm l := by
  induction l with
  | nil => exact List.Perm.refl []
  | cons x xs ih =>
    exact (insortBy_perm le x (pySort le xs)).trans (ih.cons x)

theorem mem_insortBy {α : Type} {le : α → α → Bool} {x y : α} {l : List α} :
    y ∈ insortBy le x l ↔ y = x ∨ y ∈ l := by
  rw [(insortBy_perm le x l).mem_iff, List.mem_cons]

theorem insortBy_sorted {α : Type} {le : α → α → Bool}
    (htot : ∀ a b, le a b = true ∨ le b a = true)
    (htrans : ∀ a b c, le a b = true → le b c = true → le a c = true)
    (x : α) {l : List α} (hl : l.Pairwise (fun a b => le a b = true)) :
    (insortBy le x l).Pairwise (fun a b => le a b = true) := by
  induction l with
  | nil => simp [insortBy]
  | cons y ys ih =>
    rw [List.pairwise_cons] at hl
    unfold insortBy
    by_cases h : le x y = true
    · rw [if_pos h]
      rw [List.pairwise_cons]
      constructor
      · intro z hz
        rcases List.mem_cons.1 hz with hz | hz
        · exact hz ▸ h
        · exact htrans x y z h (hl.1 z hz)
      · rw [List.pairwise_cons]
        exact hl
    · rw [if_neg h]
      rw [List.pairwise_cons]
      constructor
      · intro z hz
        rcases mem_insortBy.1 hz with hz | hz
        · rcases htot x y with h' | h'
          · exact absurd h' h
          · exact hz ▸ h'
        · exact hl.1 z hz
      · exact ih hl.2

theorem pySort_sorted {α : Type} {le : α → α → Bool}
    (htot : ∀ a b, le a b = true ∨ le b a = true)
    (htrans : ∀ a b c, le a b = true → le b c = true → le a c = true)
    (l : List α) :
    (pySort le l).Pairwise (fun a b => le a b = true) := by
  induction l with
  | nil => simp [pySort]
  | cons x xs ih => exact insortBy_sorted htot htrans x ih

instance instKeyLeAntisymm : IsAntisymm (ℚ × List Char) (fun a b => keyLe a b = true) where
  antisymm _ _ h1 h2 := keyLe_antisymm h1 h2

/-- Sorting with `keyLe` sends permuted inputs to the same output: the
order is total and antisymmetric, so the sorted permutation is unique. -/
theorem pySort_keyLe_congr {l₁ l₂ : List (ℚ × List Char)} (h : l₁.Perm l₂) :
    pySort keyLe l₁ = pySort keyLe l₂ := by
  refine @List.eq_of_perm_of_sorted _ (fun a b => keyLe a b = true) instKeyLeAntisymm _ _
    (((pySort_perm keyLe l₁).trans h).trans (pySort_perm keyLe l₂).symm) ?_ ?_
  · exact pySort_sorted keyLe_total (fun a b c => keyLe_trans) l₁
  · exact pySort_sorted keyLe_total (fun a b c => keyLe_trans) l₂

/-! ### `find?`, `weightOf`, `contains` basics -/

@[simp] theorem TrieNode.find?_nil (n : TrieNode) : n.find? [] = some n := rfl

theorem TrieNode.find?_cons (n : TrieNode) (c : Char) (w : List Char) :
    n.find? (c :: w) =
      (match assocFind c n.children with
        | none => none
        | some child => child.find? w) := rfl

/-- The landed node's `is_word`, i.e. the body of `Trie.contains` relative
to a node. -/
def TrieNode.containsGo (n : TrieNode) (w : List Char) : Bool :=
  match n.find? w with
  | none => false
  | some m => m.is_word

theorem Trie.contains_eq (t : Trie) (w : List Char) :
    t.contains w = t.root.containsGo w := rfl

@[simp] theorem TrieNode.containsGo_nil (n : TrieNode) :
    n.containsGo [] = n.is_word := rfl

theorem TrieNode.containsGo_cons (n : TrieNode) (c : Char) (w : List Char) :
    n.containsGo (c :: w) =
      (match assocFind c n.children with
        | none => false
        | some child => child.containsGo w) := by
  unfold TrieNode.containsGo
  rw [TrieNode.find?_cons]
  cases assocFind c n.children <;> rfl

@[simp] theorem TrieNode.weightOf_nil (n : TrieNode) :
    n.weightOf [] = (if n.is_word then some n.freq else none) := rfl

theorem TrieNode.weightOf_cons (n : TrieNode) (c : Char) (w : List Char) :
    n.weightOf (c :: w) =
      (match assocFind c n.children with
        | none => none
        | some child => child.weightOf w) := by
  unfold TrieNode.weightOf
  rw [TrieNode.find?_cons]
  cases assocFind c n.children <;> rfl

theorem TrieNode.weightOf_fresh (w : List Char) :
    TrieNode.fresh.weightOf w = none := by
  cases w with
  | nil => rfl
  | cons c s => rw [TrieNode.weightOf_cons]; rfl

theorem TrieNode.containsGo_fresh (w : List Char) :
    TrieNode.fresh.containsGo w = false := by
  cases w with
  | nil => rfl
  | cons c s => rw [TrieNode.containsGo_cons]; rfl

theorem TrieNode.containsGo_eq_isSome_weightOf (n : TrieNode) (w : List Char) :
    n.containsGo w = (n.weightOf w).isSome := by
  unfold TrieNode.containsGo TrieNode.weightOf
  cases n.find? w with
  | none => rfl
  | some m => cases hm : m.is_word <;> simp [hm]

theorem TrieNode.find?_append (n : TrieNode) (p s : List Char) :
    n.find? (p ++ s) = (n.find? p).bind (fun m => m.find? s) := by
  induction p generalizing n with
  | nil => rfl
  | cons c p ih =>
    rw [List.cons_append, TrieNode.find?_cons, TrieNode.find?_cons]
    cases assocFind c n.children with
    | none => rfl
    | some child => exact ih child

/-! ### Effect of `insert` on the word map -/

theorem insertGo_nil (n : TrieNode) (f : ℚ) :
    n.insertGo [] f = (⟨n.children, true, f⟩, 0, n.is_word) := rfl

theorem insertGo_cons_some {n child : TrieNode} {c : Char}
    (h : assocFind c n.children = some child) (w : List Char) (f : ℚ) :
    n.insertGo (c :: w) f =
      (⟨assocSet c (child.insertGo w f).1 n.children, n.is_word, n.freq⟩,
        (child.insertGo w f).2) := by
  rw [TrieNode.insertGo, h]

theorem insertGo_cons_none {n : TrieNode} {c : Char}
    (h : assocFind c n.children = none) (w : List Char) (f : ℚ) :
    n.insertGo (c :: w) f =
      (⟨n.children ++ [(c, (TrieNode.fresh.insertGo w f).1)], n.is_word, n.freq⟩,
        (TrieNode.fresh.insertGo w f).2.1 + 1, (TrieNode.fresh.insertGo w f).2.2) := by
  rw [TrieNode.insertGo, h]

theorem insertGo_weightOf (w : List Char) :
    ∀ (n : TrieNode) (w' : List Char) (f : ℚ),
      (n.insertGo w f).1.weightOf w' = if w' = w then some f else n.weightOf w' := by
  induction w with
  | nil =>
    intro n w' f
    rw [insertGo_nil]
    cases w' with
    | nil => simp
    | cons c' s' =>
      rw [TrieNode.weightOf_cons, TrieNode.weightOf_cons]
      simp
  | cons c w ih =>
    intro n w' f
    cases h : assocFind c n.children with
    | some child =>
      rw [insertGo_cons_some h]
      cases w' with
      | nil =>
        rw [TrieNode.weightOf_nil]
        simp
      | cons c' s' =>
        rw [TrieNode.weightOf_cons, TrieNode.weightOf_cons]
        simp only [TrieNode.children_mk]
        by_cases hc : c' = c
        · subst hc
          rw [assocFind_assocSet_same _ h, h]
          simp only [ih child s' f]
          by_cases hs : s' = w
          · simp [hs]
          · simp [hs]
        · rw [assocFind_assocSet_ne hc]
          have hne : ¬(c' :: s' = c :: w) := by simp [hc]
          rw [if_neg hne]
    | none =>
      rw [insertGo_cons_none h]
      cases w' with
      | nil =>
        rw [TrieNode.weightOf_nil]
        simp
      | cons c' s' =>
        rw [TrieNode.weightOf_cons, TrieNode.weightOf_cons]
        simp only [TrieNode.children_mk]
        rw [assocFind_append]
        cases h2 : assocFind c' n.children with
        | some v =>
          have hc : ¬ c' = c := by
            intro hh
            rw [hh, h] at h2
            cases h2
          have hne : ¬(c' :: s' = c :: w) := by simp [hc]
          rw [if_neg hne]
        | none =>
          by_cases hc : c = c'
          · subst hc
            simp [ih TrieNode.fresh s' f, TrieNode.weightOf_fresh]
          · rw [if_neg hc]
            have hne : ¬(c' :: s' = c :: w) := by
              intro hh
              exact hc (List.head_eq_of_cons_eq hh).symm
            rw [if_neg hne]

/-! ### Measures and well-formedness: unfolding lemmas -/

@[simp] theorem TrieNode.size_mk (cs : List (Char × TrieNode)) (b : Bool) (f : ℚ) :
    TrieNode.size ⟨cs, b, f⟩ = 1 + TrieNode.sizeList cs := by
  rw [TrieNode.size]

@[simp] theorem TrieNode.sizeList_nil : TrieNode.sizeList [] = 0 := by
  rw [TrieNode.sizeList]

@[simp] theorem TrieNode.sizeList_cons (c : Char) (child : TrieNode)
    (rest : List (Char × TrieNode)) :
    TrieNode.sizeList ((c, child) :: rest) =
      TrieNode.size child + TrieNode.sizeList rest := by
  rw [TrieNode.sizeList]

@[simp] theorem TrieNode.countW_mk (cs : List (Char × TrieNode)) (b : Bool) (f : ℚ) :
    TrieNode.countW ⟨cs, b, f⟩ = (if b then 1 else 0) + TrieNode.countWList cs := by
  rw [TrieNode.countW]

@[simp] theorem TrieNode.countWList_nil : TrieNode.countWList [] = 0 := by
  rw [TrieNode.countWList]

@[simp] theorem TrieNode.countWList_cons (c : Char) (child : TrieNode)
    (rest : List (Char × TrieNode)) :
    TrieNode.countWList ((c, child) :: rest) =
      TrieNode.countW child + TrieNode.countWList rest := by
  rw [TrieNode.countWList]

@[simp] theorem TrieNode.wfB_mk (cs : List (Char × TrieNode)) (b : Bool) (f : ℚ) :
    TrieNode.wfB ⟨cs, b, f⟩ =
      (decide ((cs.map Prod.fst).Nodup) && TrieNode.wfListB cs) := by
  rw [TrieNode.wfB]

@[simp] theorem TrieNode.wfListB_nil : TrieNode.wfListB [] = true := by
  rw [TrieNode.wfListB]

@[simp] theorem TrieNode.wfListB_cons (c : Char) (child : TrieNode)
    (rest : List (Char × TrieNode)) :
    TrieNode.wfListB ((c, child) :: rest) =
      (TrieNode.wfB child && TrieNode.wfListB rest) := by
  rw [TrieNode.wfListB]

@[simp] theorem TrieNode.goodB_mk (cs : List (Char × TrieNode)) (b : Bool) (f : ℚ) :
    TrieNode.goodB ⟨cs, b, f⟩ = ((b || !cs.isEmpty) && TrieNode.goodListB cs) := by
  rw [TrieNode.goodB]

@[simp] theorem TrieNode.goodListB_nil : TrieNode.goodListB [] = true := by
  rw [TrieNode.goodListB]

@[simp] theorem TrieNode.goodListB_cons (c : Char) (child : TrieNode)
    (rest : List (Char × TrieNode)) :
    TrieNode.goodListB ((c, child) :: rest) =
      (TrieNode.goodB child && TrieNode.goodListB rest) := by
  rw [TrieNode.goodListB]

theorem wfListB_iff (l : List (Char × TrieNode)) :
    TrieNode.wfListB l = true ↔ ∀ p ∈ l, TrieNode.wfB p.2 = true := by
  induction l with
  | nil => simp
  | cons x rest ih =>
    obtain ⟨c, child⟩ := x
    simp [ih]

theorem goodListB_iff (l : List (Char × TrieNode)) :
    TrieNode.goodListB l = true ↔ ∀ p ∈ l, TrieNode.goodB p.2 = true := by
  induction l with
  | nil => simp
  | cons x rest ih =>
    obtain ⟨c, child⟩ := x
    simp [ih]

theorem wfB_parts {n : TrieNode} (h : n.wfB = true) :
    (n.children.map Prod.fst).Nodup ∧ TrieNode.wfListB n.children = true := by
  obtain ⟨cs, b, f⟩ := n
  simp at h
  exact ⟨h.1, h.2⟩

theorem wfB_child {n child : TrieNode} {c : Char} (h : n.wfB = true)
    (hm : (c, child) ∈ n.children) : child.wfB = true :=
  (wfListB_iff n.children).1 (wfB_parts h).2 (c, child) hm

theorem wfB_of_parts {cs : List (Char × TrieNode)} {b : Bool} {f : ℚ}
    (h1 : (cs.map Prod.fst).Nodup) (h2 : TrieNode.wfListB cs = true) :
    TrieNode.wfB ⟨cs, b, f⟩ = true := by
  simp [h2]
  exact h1

/-! ### Measure lemmas for the association-list operations -/

theorem sizeList_assocSet {c : Char} {l : List (Char × TrieNode)} {v₀ : TrieNode}
    (v : TrieNode) (h : assocFind c l = some v₀) :
    TrieNode.sizeList (assocSet c v l) + v₀.size =
      TrieNode.sizeList l + v.size := by
  induction l with
  | nil => simp at h
  | cons x rest ih =>
    obtain ⟨c', v'⟩ := x
    by_cases hc : c' = c
    · rw [assocFind_cons, if_pos hc] at h
      cases h
      rw [assocSet_cons, if_pos hc, TrieNode.sizeList_cons, TrieNode.sizeList_cons]
      omega
    · rw [assocFind_cons, if_neg hc] at h
      rw [assocSet_cons, if_neg hc, TrieNode.sizeList_cons, TrieNode.sizeList_cons]
      have := ih h
      omega

theorem sizeList_append (l : List (Char × TrieNode)) (c : Char) (v : TrieNode) :
    TrieNode.sizeList (l ++ [(c, v)]) = TrieNode.sizeList l + v.size := by
  induction l with
  | nil => simp
  | cons x rest ih =>
    obtain ⟨c', v'⟩ := x
    rw [List.cons_append, TrieNode.sizeList_cons, TrieNode.sizeList_cons, ih]
    omega

theorem sizeList_assocErase {c : Char} {l : List (Char × TrieNode)} {v₀ : TrieNode}
    (h : assocFind c l = some v₀) :
    TrieNode.sizeList (assocErase c l) + v₀.size = TrieNode.sizeList l := by
  induction l with
  | nil => simp at h
  | cons x rest ih =>
    obtain ⟨c', v'⟩ := x
    by_cases hc : c' = c
    · rw [assocFind_cons, if_pos hc] at h
      cases h
      rw [assocErase_cons, if_pos hc, TrieNode.sizeList_cons]
      omega
    · rw [assocFind_cons, if_neg hc] at h
      rw [assocErase_cons, if_neg hc, TrieNode.sizeList_cons, TrieNode.sizeList_cons]
      have := ih h
      omega

theorem countWList_assocSet {c : Char} {l : List (Char × TrieNode)} {v₀ : TrieNode}
    (v : TrieNode) (h : assocFind c l = some v₀) :
    TrieNode.countWList (assocSet c v l) + v₀.countW =
      TrieNode.countWList l + v.countW := by
  induction l with
  | nil => simp at h
  | cons x rest ih =>
    obtain ⟨c', v'⟩ := x
    by_cases hc : c' = c
    · rw [assocFind_cons, if_pos hc] at h
      cases h
      rw [assocSet_cons, if_pos hc, TrieNode.countWList_cons, TrieNode.countWList_cons]
      omega
    · rw [assocFind_cons, if_neg hc] at h
      rw [assocSet_cons, if_neg hc, TrieNode.countWList_cons, TrieNode.countWList_cons]
      have := ih h
      omega

theorem countWList_append (l : List (Char × TrieNode)) (c : Char) (v : TrieNode) :
    TrieNode.countWList (l ++ [(c, v)]) = TrieNode.countWList l + v.countW := by
  induction l with
  | nil => simp
  | cons x rest ih =>
    obtain ⟨c', v'⟩ := x
    rw [List.cons_append, TrieNode.countWList_cons, TrieNode.countWList_cons, ih]
    omega

theorem countWList_assocErase {c : Char} {l : List (Char × TrieNode)} {v₀ : TrieNode}
    (h : assocFind c l = some v₀) :
    TrieNode.countWList (assocErase c l) + v₀.countW = TrieNode.countWList l := by
  induction l with
  | nil => simp at h
  | cons x rest ih =>
    obtain ⟨c', v'⟩ := x
    by_cases hc : c' = c
    · rw [assocFind_cons, if_pos hc] at h
      cases h
      rw [assocErase_cons, if_pos hc, TrieNode.countWList_cons]
      omega
    · rw [assocFind_cons, if_neg hc] at h
      rw [assocErase_cons, if_neg hc, TrieNode.countWList_cons, TrieNode.countWList_cons]
      have := ih h
      omega

/-! ### `insert`: bookkeeping -/

theorem insertGo_wasw (w : List Char) :
    ∀ (n : TrieNode) (f : ℚ), (n.insertGo w f).2.2 = n.containsGo w := by
  induction w with
  | nil =>
    intro n f
    rw [insertGo_nil, TrieNode.containsGo_nil]
  | cons c w ih =>
    intro n f
    rw [TrieNode.containsGo_cons]
    cases h : assocFind c n.children with
    | some child =>
      rw [insertGo_cons_some h]
      exact ih child f
    | none =>
      rw [insertGo_cons_none h]
      rw [ih TrieNode.fresh f, TrieNode.containsGo_fresh]

theorem insertGo_nodes_of_find {w : List Char} :
    ∀ {n m : TrieNode} (f : ℚ), n.find? w = some m → (n.insertGo w f).2.1 = 0 := by
  induction w with
  | nil =>
    intro n m f _
    rw [insertGo_nil]
  | cons c w ih =>
    intro n m f hf
    rw [TrieNode.find?_cons] at hf
    cases h : assocFind c n.children with
    | some child =>
      rw [h] at hf
      rw [insertGo_cons_some h]
      exact ih f hf
    | none => rw [h] at hf; cases hf

theorem insertGo_size (w : List Char) :
    ∀ (n : TrieNode) (f : ℚ),
      (n.insertGo w f).1.size = n.size + (n.insertGo w f).2.1 := by
  induction w with
  | nil =>
    intro n f
    obtain ⟨cs, b, fr⟩ := n
    rw [insertGo_nil]
    simp
  | cons c w ih =>
    intro n f
    cases h : assocFind c n.children with
    | some child =>
      rw [insertGo_cons_some h]
      obtain ⟨cs, b, fr⟩ := n
      simp only [TrieNode.children_mk] at h ⊢
      have h1 := sizeList_assocSet (child.insertGo w f).1 h
      have h2 := ih child f
      simp only [TrieNode.size_mk]
      omega
    | none =>
      rw [insertGo_cons_none h]
      obtain ⟨cs, b, fr⟩ := n
      simp only [TrieNode.children_mk] at h ⊢
      have h1 := sizeList_append cs c (TrieNode.fresh.insertGo w f).1
      have h2 := ih TrieNode.fresh f
      simp only [TrieNode.size_mk, h1]
      have h3 : TrieNode.fresh.size = 1 := rfl
      omega

theorem insertGo_countW (w : List Char) :
    ∀ (n : TrieNode) (f : ℚ),
      (n.insertGo w f).1.countW + (if (n.insertGo w f).2.2 then 1 else 0) =
        n.countW + 1 := by
  induction w with
  | nil =>
    intro n f
    obtain ⟨cs, b, fr⟩ := n
    rw [insertGo_nil]
    simp only [TrieNode.countW_mk, TrieNode.children_mk, TrieNode.is_word_mk]
    cases b <;> simp [Nat.add_comm]
  | cons c w ih =>
    intro n f
    cases h : assocFind c n.children with
    | some child =>
      rw [insertGo_cons_some h]
      obtain ⟨cs, b, fr⟩ := n
      simp only [TrieNode.children_mk, TrieNode.is_word_mk, TrieNode.freq_mk] at h ⊢
      have h1 := countWList_assocSet (child.insertGo w f).1 h
      have h2 := ih child f
      simp only [TrieNode.countW_mk]
      omega
    | none =>
      rw [insertGo_cons_none h]
      obtain ⟨cs, b, fr⟩ := n
      simp only [TrieNode.children_mk, TrieNode.is_word_mk, TrieNode.freq_mk] at h ⊢
      have h1 := countWList_append cs c (TrieNode.fresh.insertGo w f).1
      have h2 := ih TrieNode.fresh f
      have h3 : TrieNode.fresh.countW = 0 := rfl
      simp only [TrieNode.countW_mk, h1]
      omega

theorem insertGo_wf (w : List Char) :
    ∀ (n : TrieNode) (f : ℚ), n.wfB = true → (n.insertGo w f).1.wfB = true := by
  induction w with
  | nil =>
    intro n f hwf
    rw [insertGo_nil]
    obtain ⟨cs, b, fr⟩ := n
    simp only [TrieNode.children_mk]
    exact wfB_of_parts (wfB_parts hwf).1 (wfB_parts hwf).2
  | cons c w ih =>
    intro n f hwf
    cases h : assocFind c n.children with
    | some child =>
      rw [insertGo_cons_some h]
      apply wfB_of_parts
      · rw [map_fst_assocSet]
        exact (wfB_parts hwf).1
      · rw [wfListB_iff]
        intro p hp
        rcases mem_assocSet hp with hp' | hp'
        · rw [hp']
          exact ih child f (wfB_child hwf (assocFind_mem h))
        · exact (wfListB_iff _).1 (wfB_parts hwf).2 p hp'
    | none =>
      rw [insertGo_cons_none h]
      apply wfB_of_parts
      · rw [List.map_append]
        simp only [List.map_cons, List.map_nil]
        rw [List.nodup_append]
        refine ⟨(wfB_parts hwf).1, List.nodup_singleton c, ?_⟩
        intro a ha hb
        rw [List.mem_singleton] at hb
        rw [hb] at ha
        exact ((assocFind_eq_none c n.children).1 h) ha
      · rw [wfListB_iff]
        intro p hp
        rw [List.mem_append] at hp
        rcases hp with hp | hp
        · exact (wfListB_iff _).1 (wfB_parts hwf).2 p hp
        · rw [List.mem_singleton] at hp
          rw [hp]
          exact ih TrieNode.fresh f rfl

theorem insertGo_fresh_good (w : List Char) (f : ℚ) :
    (TrieNode.fresh.insertGo w f).1.goodB = true := by
  induction w with
  | nil => rfl
  | cons c w ih =>
    have h : assocFind c TrieNode.fresh.children = none := rfl
    rw [insertGo_cons_none h]
    have hch : TrieNode.fresh.children ++ [(c, (TrieNode.fresh.insertGo w f).1)]
        = [(c, (TrieNode.fresh.insertGo w f).1)] := rfl
    rw [hch, TrieNode.goodB_mk, TrieNode.goodListB_cons]
    simp [ih]

theorem insertGo_good (w : List Char) :
    ∀ (n : TrieNode) (f : ℚ), TrieNode.goodListB n.children = true →
      TrieNode.goodListB (n.insertGo w f).1.children = true ∧
        (n.goodB = true → (n.insertGo w f).1.goodB = true) := by
  induction w with
  | nil =>
    intro n f hg
    rw [insertGo_nil]
    obtain ⟨cs, b, fr⟩ := n
    simp only [TrieNode.children_mk] at hg ⊢
    refine ⟨hg, fun _ => ?_⟩
    simp [hg]
  | cons c w ih =>
    intro n f hg
    cases h : assocFind c n.children with
    | some child =>
      rw [insertGo_cons_some h]
      have hchild : child.goodB = true :=
        (goodListB_iff _).1 hg (c, child) (assocFind_mem h)
      have hchild' : (child.insertGo w f).1.goodB = true := by
        obtain ⟨ccs, cb, cf⟩ := child
        have hcl : TrieNode.goodListB (TrieNode.mk ccs cb cf).children = true := by
          simp only [TrieNode.goodB_mk, Bool.and_eq_true] at hchild
          exact hchild.2
        exact ((ih _ f hcl).2) hchild
      constructor
      · simp only [TrieNode.children_mk]
        rw [goodListB_iff]
        intro p hp
        rcases mem_assocSet hp with hp' | hp'
        · rw [hp']
          exact hchild'
        · exact (goodListB_iff _).1 hg p hp'
      · intro hgood
        obtain ⟨cs, b, fr⟩ := n
        simp only [TrieNode.goodB_mk, Bool.and_eq_true] at hgood
        simp only [TrieNode.children_mk, TrieNode.is_word_mk, TrieNode.freq_mk] at h ⊢
        rw [TrieNode.goodB_mk, Bool.and_eq_true]
        constructor
        · rw [isEmpty_assocSet]
          exact hgood.1
        · rw [goodListB_iff]
          intro p hp
          rcases mem_assocSet hp with hp' | hp'
          · rw [hp']
            exact hchild'
          · exact (goodListB_iff _).1 hg p hp'
    | none =>
      rw [insertGo_cons_none h]
      have hlist : TrieNode.goodListB
          (n.children ++ [(c, (TrieNode.fresh.insertGo w f).1)]) = true := by
        rw [goodListB_iff]
        intro p hp
        rw [List.mem_append] at hp
        rcases hp with hp | hp
        · exact (goodListB_iff _).1 hg p hp
        · rw [List.mem_singleton] at hp
          rw [hp]
          exact insertGo_fresh_good w f
      constructor
      · simpa using hlist
      · intro _
        rw [TrieNode.goodB_mk, Bool.and_eq_true]
        refine ⟨?_, hlist⟩
        have hne : (n.children ++ [(c, (TrieNode.fresh.insertGo w f).1)]).isEmpty = false := by
          cases n.children <;> rfl
        rw [hne]
        simp

/-! ### `remove`: unfolding and bookkeeping -/

theorem removeGo_nil_word {n : TrieNode} (h : n.is_word = true) :
    n.removeGo [] = (⟨n.children, false, 0⟩, n.children.isEmpty, true, 0) := by
  rw [TrieNode.removeGo, if_pos h]

theorem removeGo_nil_notword {n : TrieNode} (h : n.is_word = false) :
    n.removeGo [] = (n, false, false, 0) := by
  rw [TrieNode.removeGo, if_neg (by rw [h]; exact Bool.false_ne_true)]

theorem removeGo_cons_none {n : TrieNode} {c : Char} (w : List Char)
    (h : assocFind c n.children = none) :
    n.removeGo (c :: w) = (n, false, false, 0) := by
  rw [TrieNode.removeGo, h]

theorem removeGo_cons_some_del {n child : TrieNode} {c : Char} {w : List Char}
    (h : assocFind c n.children = some child)
    (hdel : (child.removeGo w).2.1 = true) :
    n.removeGo (c :: w) =
      (⟨assocErase c n.children, n.is_word, n.freq⟩,
        !n.is_word && (assocErase c n.children).isEmpty,
        (child.removeGo w).2.2.1, (child.removeGo w).2.2.2 + 1) := by
  rw [TrieNode.removeGo, h]
  simp only [hdel, if_true]

theorem removeGo_cons_some_nodel {n child : TrieNode} {c : Char} {w : List Char}
    (h : assocFind c n.children = some child)
    (hdel : (child.removeGo w).2.1 = false) :
    n.removeGo (c :: w) =
      (⟨assocSet c (child.removeGo w).1 n.children, n.is_word, n.freq⟩,
        false, (child.removeGo w).2.2.1, (child.removeGo w).2.2.2) := by
  rw [TrieNode.removeGo, h]
  simp only [hdel, Bool.false_eq_true, if_false]

/-- A missing word is never removed: the walk mutates nothing and reports
no removal and no deletions. -/
theorem removeGo_of_not_contains (w : List Char) :
    ∀ n : TrieNode, n.containsGo w = false → n.removeGo w = (n, false, false, 0) := by
  induction w with
  | nil =>
    intro n h
    rw [TrieNode.containsGo_nil] at h
    exact removeGo_nil_notword h
  | cons c w ih =>
    intro n h
    rw [TrieNode.containsGo_cons] at h
    cases hf : assocFind c n.children with
    | none => exact removeGo_cons_none w hf
    | some child =>
      rw [hf] at h
      have hchild := ih child h
      have hdel : (child.removeGo w).2.1 = false := by rw [hchild]
      rw [removeGo_cons_some_nodel hf hdel, hchild]
      rw [assocSet_self hf, TrieNode.eta]

/-- When `_remove` asks its caller to delete the child, that child has just
become a childless non-word node. -/
theorem removeGo_del (w : List Char) (n : TrieNode)
    (h : (n.removeGo w).2.1 = true) :
    (n.removeGo w).1.children = [] ∧ (n.removeGo w).1.is_word = false := by
  cases w with
  | nil =>
    cases hw : n.is_word with
    | true =>
      rw [removeGo_nil_word hw] at h ⊢
      simp at h ⊢
      exact h
    | false =>
      rw [removeGo_nil_notword hw] at h
      cases h
  | cons c w =>
    cases hf : assocFind c n.children with
    | none =>
      rw [removeGo_cons_none w hf] at h
      cases h
    | some child =>
      cases hdel : (child.removeGo w).2.1 with
      | true =>
        rw [removeGo_cons_some_del hf hdel] at h ⊢
        simp only [Bool.and_eq_true, Bool.not_eq_true'] at h
        simp only [TrieNode.children_mk, TrieNode.is_word_mk]
        exact ⟨List.isEmpty_iff.1 h.2, h.1⟩
      | false =>
        rw [removeGo_cons_some_nodel hf hdel] at h
        cases h

theorem weightOf_childless {n : TrieNode} (hc : n.children = [])
    (hw : n.is_word = false) (s : List Char) : n.weightOf s = none := by
  cases s with
  | nil => rw [TrieNode.weightOf_nil, hw]; rfl
  | cons c s =>
    rw [TrieNode.weightOf_cons, hc]
    rfl

theorem TrieNode.weightOf_bind (n : TrieNode) (c : Char) (w : List Char) :
    n.weightOf (c :: w) =
      (assocFind c n.children).bind (fun child => child.weightOf w) := by
  rw [TrieNode.weightOf_cons]
  cases assocFind c n.children <;> rfl

/-- The effect of `_remove` on the word map: the removed word is gone,
every other word keeps its weight. -/
theorem removeGo_weightOf (w : List Char) :
    ∀ (n : TrieNode) (w' : List Char), n.wfB = true →
      (n.removeGo w).1.weightOf w' = if w' = w then none else n.weightOf w' := by
  induction w with
  | nil =>
    intro n w' _
    cases hw : n.is_word with
    | true =>
      rw [removeGo_nil_word hw]
      cases w' with
      | nil => simp
      | cons c s =>
        rw [TrieNode.weightOf_bind, TrieNode.weightOf_bind]
        simp
    | false =>
      rw [removeGo_nil_notword hw]
      cases w' with
      | nil => simp [hw]
      | cons c s => simp
  | cons c w ih =>
    intro n w' hwf
    cases hf : assocFind c n.children with
    | none =>
      rw [removeGo_cons_none w hf]
      change n.weightOf w' = _
      cases w' with
      | nil => simp
      | cons c' s' =>
        by_cases hc : c' = c
        · subst hc
          by_cases hs : s' = w
          · rw [if_pos (by rw [hs]), TrieNode.weightOf_bind, hf]
            rfl
          · rw [if_neg (by simp [hs])]
        · rw [if_neg (by simp [hc])]
    | some child =>
      have hchildwf : child.wfB = true := wfB_child hwf (assocFind_mem hf)
      cases hdel : (child.removeGo w).2.1 with
      | true =>
        rw [removeGo_cons_some_del hf hdel]
        have hdc := removeGo_del w child hdel
        have hnone : ∀ s, (child.removeGo w).1.weightOf s = none :=
          fun s => weightOf_childless hdc.1 hdc.2 s
        have hcw : ∀ s, s ≠ w → child.weightOf s = none := by
          intro s hs
          have h1 := ih child s hchildwf
          rw [if_neg hs] at h1
          rw [← h1]
          exact hnone s
        cases w' with
        | nil =>
          rw [TrieNode.weightOf_nil, TrieNode.weightOf_nil]
          simp
        | cons c' s' =>
          rw [TrieNode.weightOf_bind, TrieNode.weightOf_bind]
          simp only [TrieNode.children_mk]
          by_cases hc : c' = c
          · subst hc
            rw [assocFind_assocErase_self (wfB_parts hwf).1, hf]
            by_cases hs : s' = w
            · rw [if_pos (by rw [hs])]
              rfl
            · rw [if_neg (by simp [hs])]
              simp only [Option.none_bind, Option.some_bind]
              rw [hcw s' hs]
          · rw [assocFind_assocErase_ne hc, if_neg (by simp [hc])]
      | false =>
        rw [removeGo_cons_some_nodel hf hdel]
        cases w' with
        | nil =>
          rw [TrieNode.weightOf_nil, TrieNode.weightOf_nil]
          simp
        | cons c' s' =>
          rw [TrieNode.weightOf_bind, TrieNode.weightOf_bind]
          simp only [TrieNode.children_mk]
          by_cases hc : c' = c
          · subst hc
            rw [assocFind_assocSet_same _ hf, hf]
            simp only [Option.some_bind]
            rw [ih child s' hchildwf]
            by_cases hs : s' = w
            · rw [if_pos hs, if_pos (by rw [hs])]
            · rw [if_neg hs, if_neg (by simp [hs])]
          · rw [assocFind_assocSet_ne hc, if_neg (by simp [hc])]

theorem size_childless {n : TrieNode} (hc : n.children = []) : n.size = 1 := by
  obtain ⟨cs, b, f⟩ := n
  simp at hc
  simp [hc]

theorem countW_childless {n : TrieNode} (hc : n.children = [])
    (hw : n.is_word = false) : n.countW = 0 := by
  obtain ⟨cs, b, f⟩ := n
  simp at hc hw
  simp [hc, hw]

/-- `_remove` deletes exactly the nodes it counts: the subtree shrinks by
the reported deletion count. -/
theorem removeGo_size (w : List Char) :
    ∀ n : TrieNode, (n.removeGo w).1.size + (n.removeGo w).2.2.2 = n.size := by
  induction w with
  | nil =>
    intro n
    cases hw : n.is_word with
    | true =>
      rw [removeGo_nil_word hw]
      obtain ⟨cs, b, f⟩ := n
      simp
    | false =>
      rw [removeGo_nil_notword hw]
      rfl
  | cons c w ih =>
    intro n
    cases hf : assocFind c n.children with
    | none =>
      rw [removeGo_cons_none w hf]
      rfl
    | some child =>
      cases hdel : (child.removeGo w).2.1 with
      | true =>
        rw [removeGo_cons_some_del hf hdel]
        have hdc := removeGo_del w child hdel
        have h1 : (child.removeGo w).1.size = 1 := size_childless hdc.1
        have h2 := ih child
        have h3 := sizeList_assocErase hf
        obtain ⟨cs, b, fr⟩ := n
        simp only [TrieNode.children_mk] at h3 ⊢
        simp only [TrieNode.size_mk]
        omega
      | false =>
        rw [removeGo_cons_some_nodel hf hdel]
        have h2 := ih child
        have h3 := sizeList_assocSet (child.removeGo w).1 hf
        obtain ⟨cs, b, fr⟩ := n
        simp only [TrieNode.children_mk] at h3 ⊢
        simp only [TrieNode.size_mk]
        omega

/-- `_remove` clears exactly one word flag when it reports a removal. -/
theorem removeGo_countW (w : List Char) :
    ∀ n : TrieNode,
      (n.removeGo w).1.countW + (if (n.removeGo w).2.2.1 then 1 else 0) =
        n.countW := by
  induction w with
  | nil =>
    intro n
    cases hw : n.is_word with
    | true =>
      rw [removeGo_nil_word hw]
      obtain ⟨cs, b, f⟩ := n
      simp at hw
      simp [hw]
      omega
    | false =>
      rw [removeGo_nil_notword hw]
      simp
  | cons c w ih =>
    intro n
    cases hf : assocFind c n.children with
    | none =>
      rw [removeGo_cons_none w hf]
      simp
    | some child =>
      cases hdel : (child.removeGo w).2.1 with
      | true =>
        rw [removeGo_cons_some_del hf hdel]
        have hdc := removeGo_del w child hdel
        have h1 : (child.removeGo w).1.countW = 0 := countW_childless hdc.1 hdc.2
        have h2 := ih child
        have h3 := countWList_assocErase hf
        obtain ⟨cs, b, fr⟩ := n
        simp only [TrieNode.children_mk] at h3 ⊢
        simp only [TrieNode.countW_mk, TrieNode.is_word_mk]
        omega
      | false =>
        rw [removeGo_cons_some_nodel hf hdel]
        have h2 := ih child
        have h3 := countWList_assocSet (child.removeGo w).1 hf
        obtain ⟨cs, b, fr⟩ := n
        simp only [TrieNode.children_mk] at h3 ⊢
        simp only [TrieNode.countW_mk, TrieNode.is_word_mk]
        omega

/-- `_remove` keeps the children dictionaries well-formed. -/
theorem removeGo_wf (w : List Char) :
    ∀ n : TrieNode, n.wfB = true → (n.removeGo w).1.wfB = true := by
  induction w with
  | nil =>
    intro n hwf
    cases hw : n.is_word with
    | true =>
      rw [removeGo_nil_word hw]
      exact wfB_of_parts (wfB_parts hwf).1 (wfB_parts hwf).2
    | false =>
      rw [removeGo_nil_notword hw]
      exact hwf
  | cons c w ih =>
    intro n hwf
    cases hf : assocFind c n.children with
    | none =>
      rw [removeGo_cons_none w hf]
      exact hwf
    | some child =>
      cases hdel : (child.removeGo w).2.1 with
      | true =>
        rw [removeGo_cons_some_del hf hdel]
        apply wfB_of_parts
        · exact ((assocErase_sublist c n.children).map Prod.fst).nodup (wfB_parts hwf).1
        · rw [wfListB_iff]
          intro p hp
          exact (wfListB_iff _).1 (wfB_parts hwf).2 p
            ((assocErase_sublist c n.children).mem hp)
      | false =>
        rw [removeGo_cons_some_nodel hf hdel]
        apply wfB_of_parts
        · rw [map_fst_assocSet]
          exact (wfB_parts hwf).1
        · rw [wfListB_iff]
          intro p hp
          rcases mem_assocSet hp with hp' | hp'
          · rw [hp']
            exact ih child (wfB_child hwf (assocFind_mem hf))
          · exact (wfListB_iff _).1 (wfB_parts hwf).2 p hp'

/-- `_remove` maintains the pruning invariant: afterwards every surviving
non-root node is still a word or still has children. -/
theorem removeGo_good (w : List Char) :
    ∀ n : TrieNode, TrieNode.goodListB n.children = true →
      TrieNode.goodListB (n.removeGo w).1.children = true ∧
        (n.goodB = true → (n.removeGo w).2.1 = false →
          (n.removeGo w).1.goodB = true) := by
  induction w with
  | nil =>
    intro n hg
    cases hw : n.is_word with
    | true =>
      rw [removeGo_nil_word hw]
      simp only [TrieNode.children_mk]
      refine ⟨hg, fun _ hdel => ?_⟩
      simp only [Bool.not_eq_true] at hdel
      rw [TrieNode.goodB_mk, Bool.and_eq_true]
      exact ⟨by rw [hdel]; rfl, hg⟩
    | false =>
      rw [removeGo_nil_notword hw]
      exact ⟨hg, fun hgood _ => hgood⟩
  | cons c w ih =>
    intro n hg
    cases hf : assocFind c n.children with
    | none =>
      rw [removeGo_cons_none w hf]
      exact ⟨hg, fun hgood _ => hgood⟩
    | some child =>
      have hchild : child.goodB = true :=
        (goodListB_iff _).1 hg (c, child) (assocFind_mem hf)
      cases hdel : (child.removeGo w).2.1 with
      | true =>
        rw [removeGo_cons_some_del hf hdel]
        have hlist : TrieNode.goodListB (assocErase c n.children) = true := by
          rw [goodListB_iff]
          intro p hp
          exact (goodListB_iff _).1 hg p ((assocErase_sublist c n.children).mem hp)
        simp only [TrieNode.children_mk]
        refine ⟨hlist, fun _ hdelout => ?_⟩
        rw [TrieNode.goodB_mk, Bool.and_eq_true]
        refine ⟨?_, hlist⟩
        cases hb : n.is_word with
        | true => rfl
        | false =>
          simp only [hb, Bool.not_false, Bool.true_and] at hdelout
          simp [hdelout]
      | false =>
        rw [removeGo_cons_some_nodel hf hdel]
        have hchildgl : TrieNode.goodListB child.children = true := by
          obtain ⟨ccs, cb, cf⟩ := child
          simp only [TrieNode.goodB_mk, Bool.and_eq_true] at hchild
          exact hchild.2
        have hchild' : (child.removeGo w).1.goodB = true :=
          (ih child hchildgl).2 hchild hdel
        have hlist : TrieNode.goodListB
            (assocSet c (child.removeGo w).1 n.children) = true := by
          rw [goodListB_iff]
          intro p hp
          rcases mem_assocSet hp with hp' | hp'
          · rw [hp']
            exact hchild'
          · exact (goodListB_iff _).1 hg p hp'
        simp only [TrieNode.children_mk]
        refine ⟨hlist, fun hgood _ => ?_⟩
        rw [TrieNode.goodB_mk, Bool.and_eq_true]
        refine ⟨?_, hlist⟩
        rw [isEmpty_assocSet]
        obtain ⟨cs, b, fr⟩ := n
        simp only [TrieNode.goodB_mk, Bool.and_eq_true] at hgood
        simp only [TrieNode.is_word_mk, TrieNode.children_mk]
        exact hgood.1

/-! ### The traversals: membership, shapes, `collect` vs `items` -/

@[simp] theorem TrieNode.itemsGo_mk (cs : List (Char × TrieNode)) (b : Bool)
    (f : ℚ) (path : List Char) :
    TrieNode.itemsGo ⟨cs, b, f⟩ path =
      (if b then [(path, f)] else []) ++ TrieNode.itemsList cs path := by
  rw [TrieNode.itemsGo]

@[simp] theorem TrieNode.itemsList_nil (path : List Char) :
    TrieNode.itemsList [] path = [] := by
  rw [TrieNode.itemsList]

@[simp] theorem TrieNode.itemsList_cons (c : Char) (child : TrieNode)
    (rest : List (Char × TrieNode)) (path : List Char) :
    TrieNode.itemsList ((c, child) :: rest) path =
      TrieNode.itemsGo child (path ++ [c]) ++ TrieNode.itemsList rest path := by
  rw [TrieNode.itemsList]

@[simp] theorem TrieNode.collect_mk (cs : List (Char × TrieNode)) (b : Bool)
    (f : ℚ) (path : List Char) :
    TrieNode.collect ⟨cs, b, f⟩ path =
      (if b then [(-f, path)] else []) ++ TrieNode.collectList cs path := by
  rw [TrieNode.collect]

@[simp] theorem TrieNode.collectList_nil (path : List Char) :
    TrieNode.collectList [] path = [] := by
  rw [TrieNode.collectList]

@[simp] theorem TrieNode.collectList_cons (c : Char) (child : TrieNode)
    (rest : List (Char × TrieNode)) (path : List Char) :
    TrieNode.collectList ((c, child) :: rest) path =
      TrieNode.collect child (path ++ [c]) ++ TrieNode.collectList rest path := by
  rw [TrieNode.collectList]

mutual

/-- `complete`'s `dfs` gathers exactly `items`' `dfs` with each pair turned
into its `(-freq, word)` sort key. -/
theorem collect_eq_items (n : TrieNode) (path : List Char) :
    TrieNode.collect n path =
      (TrieNode.itemsGo n path).map (fun wf => (-wf.2, wf.1)) := by
  obtain ⟨cs, b, f⟩ := n
  rw [TrieNode.collect_mk, TrieNode.itemsGo_mk, List.map_append,
    collectList_eq_items cs path]
  cases b <;> simp

theorem collectList_eq_items (cs : List (Char × TrieNode)) (path : List Char) :
    TrieNode.collectList cs path =
      (TrieNode.itemsList cs path).map (fun wf => (-wf.2, wf.1)) := by
  cases cs with
  | nil => simp
  | cons x rest =>
    obtain ⟨c, child⟩ := x
    rw [TrieNode.collectList_cons, TrieNode.itemsList_cons, List.map_append,
      collect_eq_items child (path ++ [c]), collectList_eq_items rest path]

end

mutual

theorem itemsGo_shape (n : TrieNode) (path : List Char) :
    ∀ x ∈ TrieNode.itemsGo n path, ∃ s, x.1 = path ++ s := by
  obtain ⟨cs, b, f⟩ := n
  intro x hx
  rw [TrieNode.itemsGo_mk, List.mem_append] at hx
  rcases hx with hx | hx
  · cases b with
    | true =>
      simp only [if_true, List.mem_singleton] at hx
      exact ⟨[], by rw [hx, List.append_nil]⟩
    | false => simp at hx
  · rcases itemsList_shape cs path x hx with ⟨c, s, _, hs⟩
    exact ⟨c :: s, hs⟩

theorem itemsList_shape (cs : List (Char × TrieNode)) (path : List Char) :
    ∀ x ∈ TrieNode.itemsList cs path,
      ∃ c s, c ∈ cs.map Prod.fst ∧ x.1 = path ++ c :: s := by
  cases cs with
  | nil => simp
  | cons y rest =>
    obtain ⟨c, child⟩ := y
    intro x hx
    rw [TrieNode.itemsList_cons, List.mem_append] at hx
    rcases hx with hx | hx
    · rcases itemsGo_shape child (path ++ [c]) x hx with ⟨s, hs⟩
      refine ⟨c, s, by simp, ?_⟩
      rw [hs, List.append_assoc]
      rfl
    · rcases itemsList_shape rest path x hx with ⟨c', s, hc', hs⟩
      exact ⟨c', s, by simp [hc'], hs⟩

end

mutual

/-- What `items`' `dfs` emits below a well-formed node: exactly the words
of the subtree with their stored weights, each prefixed by the path. -/
theorem mem_itemsGo (n : TrieNode) (path : List Char) (hwf : n.wfB = true)
    (x : List Char × ℚ) :
    x ∈ TrieNode.itemsGo n path ↔
      ∃ s, x.1 = path ++ s ∧ n.weightOf s = some x.2 := by
  obtain ⟨cs, b, f⟩ := n
  rw [TrieNode.itemsGo_mk, List.mem_append]
  constructor
  · intro hx
    rcases hx with hx | hx
    · cases b with
      | true =>
        simp only [if_true, List.mem_singleton] at hx
        refine ⟨[], ?_, ?_⟩
        · rw [hx, List.append_nil]
        · rw [TrieNode.weightOf_nil]
          simp [hx]
      | false => simp at hx
    · rcases (mem_itemsList cs path (wfB_parts hwf).1 (wfB_parts hwf).2 x).1 hx
        with ⟨c, child, s, hfind, hx1, hw⟩
      refine ⟨c :: s, hx1, ?_⟩
      rw [TrieNode.weightOf_bind, TrieNode.children_mk, hfind, Option.some_bind, hw]
  · rintro ⟨s, hs, hw⟩
    cases s with
    | nil =>
      rw [TrieNode.weightOf_nil] at hw
      cases b with
      | true =>
        left
        simp only [TrieNode.is_word_mk, TrieNode.freq_mk, if_pos rfl] at hw
        rw [List.append_nil] at hs
        have hx2 : f = x.2 := Option.some.inj hw
        simp only [if_true, List.mem_singleton]
        obtain ⟨x1, x2⟩ := x
        simp only at hs hx2
        rw [Prod.mk.injEq]
        exact ⟨hs, hx2.symm⟩
      | false => simp at hw
    | cons c s' =>
      right
      rw [TrieNode.weightOf_bind, TrieNode.children_mk] at hw
      cases hfind : assocFind c cs with
      | none => rw [hfind] at hw; cases hw
      | some child =>
        rw [hfind, Option.some_bind] at hw
        exact (mem_itemsList cs path (wfB_parts hwf).1 (wfB_parts hwf).2 x).2
          ⟨c, child, s', hfind, hs, hw⟩

theorem mem_itemsList (cs : List (Char × TrieNode)) (path : List Char)
    (hnd : (cs.map Prod.fst).Nodup) (hwl : TrieNode.wfListB cs = true)
    (x : List Char × ℚ) :
    x ∈ TrieNode.itemsList cs path ↔
      ∃ c child s, assocFind c cs = some child ∧
        x.1 = path ++ c :: s ∧ child.weightOf s = some x.2 := by
  cases cs with
  | nil => simp
  | cons y rest =>
    obtain ⟨c₀, ch₀⟩ := y
    rw [List.map_cons, List.nodup_cons] at hnd
    rw [TrieNode.wfListB_cons, Bool.and_eq_true] at hwl
    rw [TrieNode.itemsList_cons, List.mem_append]
    constructor
    · intro hx
      rcases hx with hx | hx
      · rcases (mem_itemsGo ch₀ (path ++ [c₀]) hwl.1 x).1 hx with ⟨s, hs, hw⟩
        refine ⟨c₀, ch₀, s, by rw [assocFind_cons, if_pos rfl], ?_, hw⟩
        rw [hs, List.append_assoc]
        rfl
      · rcases (mem_itemsList rest path hnd.2 hwl.2 x).1 hx
          with ⟨c, child, s, hfind, hx1, hw⟩
        have hc : ¬ c₀ = c := by
          intro hh
          exact hnd.1 (hh ▸ assocFind_mem_keys hfind)
        exact ⟨c, child, s, by rw [assocFind_cons, if_neg hc]; exact hfind, hx1, hw⟩
    · rintro ⟨c, child, s, hfind, hx1, hw⟩
      by_cases hc : c₀ = c
      · subst hc
        rw [assocFind_cons, if_pos rfl] at hfind
        have hch : ch₀ = child := Option.some.inj hfind
        subst hch
        left
        refine (mem_itemsGo ch₀ (path ++ [c₀]) hwl.1 x).2 ⟨s, ?_, hw⟩
        rw [hx1, List.append_assoc]
        rfl
      · right
        rw [assocFind_cons, if_neg hc] at hfind
        exact (mem_itemsList rest path hnd.2 hwl.2 x).2 ⟨c, child, s, hfind, hx1, hw⟩

end

mutual

/-- Below a well-formed node the traversal emits each word at most once. -/
theorem nodup_itemsGo (n : TrieNode) (path : List Char) (hwf : n.wfB = true) :
    ((TrieNode.itemsGo n path).map Prod.fst).Nodup := by
  obtain ⟨cs, b, f⟩ := n
  rw [TrieNode.itemsGo_mk, List.map_append, List.nodup_append]
  refine ⟨?_, nodup_itemsList cs path (wfB_parts hwf).1 (wfB_parts hwf).2, ?_⟩
  · cases b <;> simp
  · intro a ha hb
    cases b with
    | false => simp at ha
    | true =>
      simp only [if_true, List.map_cons, List.map_nil, List.mem_singleton] at ha
      rw [List.mem_map] at hb
      rcases hb with ⟨x, hx, hx1⟩
      rcases itemsList_shape cs path x hx with ⟨c, s, _, hs⟩
      have h1 : path ++ ([] : List Char) = path ++ c :: s := by
        rw [List.append_nil]
        calc path = a := ha.symm
          _ = x.1 := hx1.symm
          _ = path ++ c :: s := hs
      have h2 : ([] : List Char) = c :: s := List.append_cancel_left h1
      simp at h2

theorem nodup_itemsList (cs : List (Char × TrieNode)) (path : List Char)
    (hnd : (cs.map Prod.fst).Nodup) (hwl : TrieNode.wfListB cs = true) :
    ((TrieNode.itemsList cs path).map Prod.fst).Nodup := by
  cases cs with
  | nil => simp
  | cons y rest =>
    obtain ⟨c₀, ch₀⟩ := y
    rw [List.map_cons, List.nodup_cons] at hnd
    rw [TrieNode.wfListB_cons, Bool.and_eq_true] at hwl
    rw [TrieNode.itemsList_cons, List.map_append, List.nodup_append]
    refine ⟨nodup_itemsGo ch₀ (path ++ [c₀]) hwl.1,
      nodup_itemsList rest path hnd.2 hwl.2, ?_⟩
    intro a ha hb
    rw [List.mem_map] at ha hb
    rcases ha with ⟨x, hx, hx1⟩
    rcases hb with ⟨x', hx', hx1'⟩
    rcases itemsGo_shape ch₀ (path ++ [c₀]) x hx with ⟨s, hs⟩
    rcases itemsList_shape rest path x' hx' with ⟨c', s', hc', hs'⟩
    have h1 : a = path ++ c₀ :: s := by
      rw [← hx1, hs, List.append_assoc]
      rfl
    have h2 : a = path ++ c' :: s' := by rw [← hx1', hs']
    have heq : path ++ c₀ :: s = path ++ c' :: s' := by
      rw [← h1, ← h2]
    have hcc : c₀ = c' := (List.cons_eq_cons.1 (List.append_cancel_left heq)).1
    exact hnd.1 (hcc ▸ hc')

end

/-! ### Trie-level consequences -/

theorem find?_wf (p : List Char) :
    ∀ {n m : TrieNode}, n.wfB = true → n.find? p = some m → m.wfB = true := by
  induction p with
  | nil =>
    intro n m hwf h
    rw [TrieNode.find?_nil] at h
    cases h
    exact hwf
  | cons c p ih =>
    intro n m hwf h
    rw [TrieNode.find?_cons] at h
    cases hf : assocFind c n.children with
    | none => rw [hf] at h; cases h
    | some child =>
      rw [hf] at h
      exact ih (wfB_child hwf (assocFind_mem hf)) h

theorem weightOf_append_of_find {n m : TrieNode} {p : List Char}
    (h : n.find? p = some m) (s : List Char) :
    n.weightOf (p ++ s) = m.weightOf s := by
  unfold TrieNode.weightOf
  rw [TrieNode.find?_append, h, Option.some_bind]

theorem weightOf_append_of_none {n : TrieNode} {p : List Char}
    (h : n.find? p = none) (s : List Char) : n.weightOf (p ++ s) = none := by
  unfold TrieNode.weightOf
  rw [TrieNode.find?_append, h, Option.none_bind]

theorem Trie.contains_isSome (t : Trie) (w : List Char) :
    t.contains w = (t.weightOf w).isSome :=
  (Trie.contains_eq t w).trans (TrieNode.containsGo_eq_isSome_weightOf t.root w)

theorem Trie.complete_eq (t : Trie) (p : List Char) (k : ℤ) :
    t.complete p k = (pySlice k (pySort keyLe (t.matchKeys p))).map Prod.snd := by
  unfold Trie.complete Trie.matchKeys
  cases h : t.root.find? p with
  | none => simp [pySort, pySlice]
  | some n => rfl

theorem Trie.matchKeys_none {t : Trie} {p : List Char}
    (h : t.root.find? p = none) : t.matchKeys p = [] := by
  unfold Trie.matchKeys
  rw [h]

theorem Trie.matchKeys_some {t : Trie} {p : List Char} {n : TrieNode}
    (h : t.root.find? p = some n) : t.matchKeys p = n.collect p := by
  unfold Trie.matchKeys
  rw [h]

theorem Trie.mem_matchKeys {t : Trie} (hwf : t.root.wfB = true) (p : List Char)
    (x : ℚ × List Char) :
    x ∈ t.matchKeys p ↔
      (∃ s, x.2 = p ++ s) ∧ t.weightOf x.2 = some (-x.1) := by
  obtain ⟨q, u⟩ := x
  cases h : t.root.find? p with
  | none =>
    rw [Trie.matchKeys_none h]
    simp only [List.not_mem_nil, false_iff]
    rintro ⟨⟨s, hs⟩, hw⟩
    rw [hs] at hw
    rw [show Trie.weightOf t (p ++ s) = t.root.weightOf (p ++ s) from rfl,
      weightOf_append_of_none h] at hw
    cases hw
  | some n =>
    have hnwf : n.wfB = true := find?_wf p hwf h
    rw [Trie.matchKeys_some h, collect_eq_items, List.mem_map]
    constructor
    · rintro ⟨⟨u', f'⟩, hmem, hx⟩
      rcases (mem_itemsGo n p hnwf (u', f')).1 hmem with ⟨s, hs, hw⟩
      simp only at hs hw
      simp only [Prod.mk.injEq] at hx
      refine ⟨⟨s, by rw [← hx.2, hs]⟩, ?_⟩
      rw [← hx.2, hs,
        show Trie.weightOf t (p ++ s) = t.root.weightOf (p ++ s) from rfl,
        weightOf_append_of_find h, hw, ← hx.1]
      rw [neg_neg]
    · rintro ⟨⟨s, hs⟩, hw⟩
      refine ⟨(u, -q), ?_, by simp⟩
      refine (mem_itemsGo n p hnwf (u, -q)).2 ⟨s, hs, ?_⟩
      rw [← weightOf_append_of_find h, ← hs]
      exact hw

theorem Trie.nodup_matchKeys {t : Trie} (hwf : t.root.wfB = true) (p : List Char) :
    (t.matchKeys p).Nodup := by
  cases h : t.root.find? p with
  | none =>
    rw [Trie.matchKeys_none h]
    exact List.nodup_nil
  | some n =>
    rw [Trie.matchKeys_some h]
    have hnwf : n.wfB = true := find?_wf p hwf h
    apply List.Nodup.of_map Prod.snd
    have hmaps : (TrieNode.collect n p).map Prod.snd =
        (TrieNode.itemsGo n p).map Prod.fst := by
      rw [collect_eq_items, List.map_map]
      rfl
    rw [hmaps]
    exact nodup_itemsGo n p hnwf

theorem Trie.weightOf_insert (t : Trie) (w : List Char) (f : ℚ) (w' : List Char) :
    (t.insert w f).weightOf w' = if w' = w then some f else t.weightOf w' :=
  insertGo_weightOf w t.root w' f

theorem Trie.weightOf_remove (t : Trie) (hwf : t.root.wfB = true)
    (w w' : List Char) :
    (t.remove w).2.weightOf w' = if w' = w then none else t.weightOf w' :=
  removeGo_weightOf w t.root w' hwf

theorem Trie.wf_insert (t : Trie) (hwf : t.root.wfB = true) (w : List Char)
    (f : ℚ) : (t.insert w f).root.wfB = true :=
  insertGo_wf w t.root f hwf

theorem Trie.wf_remove (t : Trie) (hwf : t.root.wfB = true) (w : List Char) :
    (t.remove w).2.root.wfB = true :=
  removeGo_wf w t.root hwf

theorem Trie.wf_fresh : Trie.fresh.root.wfB = true := rfl

/-- `complete` only looks at the trie's word-weight map: two well-formed
tries agreeing on every word's stored weight complete identically. -/
theorem Trie.complete_congr {t₁ t₂ : Trie} (h1 : t₁.root.wfB = true)
    (h2 : t₂.root.wfB = true) (hw : ∀ w, t₁.weightOf w = t₂.weightOf w)
    (p : List Char) (k : ℤ) : t₁.complete p k = t₂.complete p k := by
  rw [Trie.complete_eq, Trie.complete_eq]
  suffices hs : pySort keyLe (t₁.matchKeys p) = pySort keyLe (t₂.matchKeys p) by
    rw [hs]
  apply pySort_keyLe_congr
  rw [List.perm_ext_iff_of_nodup (Trie.nodup_matchKeys h1 p)
    (Trie.nodup_matchKeys h2 p)]
  intro x
  rw [Trie.mem_matchKeys h1 p, Trie.mem_matchKeys h2 p, hw x.2]

/-! ### The query walks return the state unchanged -/

mutual

theorem collectS_eq (n : TrieNode) (path : List Char) :
    n.collectS path = (n.collect path, n) := by
  obtain ⟨cs, b, f⟩ := n
  rw [TrieNode.collectS, collectListS_eq cs path, TrieNode.collect_mk]

theorem collectListS_eq (cs : List (Char × TrieNode)) (path : List Char) :
    TrieNode.collectListS cs path = (TrieNode.collectList cs path, cs) := by
  cases cs with
  | nil => rw [TrieNode.collectListS, TrieNode.collectList_nil]
  | cons y rest =>
    obtain ⟨c, child⟩ := y
    rw [TrieNode.collectListS, collectS_eq child (path ++ [c]),
      collectListS_eq rest path, TrieNode.collectList_cons]

end

mutual

theorem itemsGoS_eq (n : TrieNode) (path : List Char) :
    n.itemsGoS path = (n.itemsGo path, n) := by
  obtain ⟨cs, b, f⟩ := n
  rw [TrieNode.itemsGoS, itemsListS_eq cs path, TrieNode.itemsGo_mk]

theorem itemsListS_eq (cs : List (Char × TrieNode)) (path : List Char) :
    TrieNode.itemsListS cs path = (TrieNode.itemsList cs path, cs) := by
  cases cs with
  | nil => rw [TrieNode.itemsListS, TrieNode.itemsList_nil]
  | cons y rest =>
    obtain ⟨c, child⟩ := y
    rw [TrieNode.itemsListS, itemsGoS_eq child (path ++ [c]),
      itemsListS_eq rest path, TrieNode.itemsList_cons]

end

mutual

theorem heightS_eq (n : TrieNode) : n.heightS = (n.height, n) := by
  obtain ⟨cs, b, f⟩ := n
  cases cs with
  | nil => rw [TrieNode.heightS, TrieNode.height]
  | cons y rest =>
    rw [TrieNode.heightS, heightListS_eq (y :: rest), TrieNode.height]

theorem heightListS_eq (cs : List (Char × TrieNode)) :
    TrieNode.heightListS cs = (TrieNode.heightList cs, cs) := by
  cases cs with
  | nil => rw [TrieNode.heightListS, TrieNode.heightList]
  | cons y rest =>
    obtain ⟨c, child⟩ := y
    rw [TrieNode.heightListS, heightS_eq child, heightListS_eq rest,
      TrieNode.heightList]

end

theorem completeGoS_cons_none {n : TrieNode} {c : Char}
    (h : assocFind c n.children = none) (p pfx : List Char) (k : ℤ) :
    Trie.completeGoS n (c :: p) pfx k = ([], n) := by
  rw [Trie.completeGoS, h]

theorem completeGoS_cons_some {n child : TrieNode} {c : Char}
    (h : assocFind c n.children = some child) (p pfx : List Char) (k : ℤ) :
    Trie.completeGoS n (c :: p) pfx k =
      ((Trie.completeGoS child p pfx k).1,
        ⟨assocSet c (Trie.completeGoS child p pfx k).2 n.children,
          n.is_word, n.freq⟩) := by
  rw [Trie.completeGoS, h]

theorem completeGoS_eq (p : List Char) :
    ∀ (n : TrieNode) (pfx : List Char) (k : ℤ),
      Trie.completeGoS n p pfx k =
        ((match n.find? p with
          | none => []
          | some m => (pySlice k (pySort keyLe (m.collect pfx))).map Prod.snd),
          n) := by
  induction p with
  | nil =>
    intro n pfx k
    rw [Trie.completeGoS, collectS_eq n pfx, TrieNode.find?_nil]
  | cons c p ih =>
    intro n pfx k
    cases hf : assocFind c n.children with
    | none => rw [completeGoS_cons_none hf, TrieNode.find?_cons, hf]
    | some child =>
      rw [completeGoS_cons_some hf, ih child pfx k, assocSet_self hf,
        TrieNode.eta, TrieNode.find?_cons, hf]

theorem Trie.completeS_eq (t : Trie) (p : List Char) (k : ℤ) :
    t.completeS p k = (t.complete p k, t) := by
  unfold Trie.completeS Trie.complete
  rw [completeGoS_eq p t.root p k]

theorem Trie.statsS_eq (t : Trie) : t.statsS = (t.stats, t) := by
  unfold Trie.statsS Trie.stats
  rw [heightS_eq t.root]

theorem Trie.itemsS_eq (t : Trie) : t.itemsS = (t.items, t) := by
  unfold Trie.itemsS Trie.items
  rw [itemsGoS_eq t.root []]

/-! ### The counter/pruning invariant along operation sequences -/

/-- The program invariant: `_nodes` counts the reachable nodes, `_words`
the reachable terminal nodes, no non-root node is a childless non-word,
and every children dictionary has distinct keys. -/
def Trie.Inv (t : Trie) : Prop :=
  t.nodes = (t.root.size : ℤ) ∧ t.words = (t.root.countW : ℤ) ∧
    TrieNode.goodListB t.root.children = true ∧ t.root.wfB = true

theorem Inv_fresh : Trie.fresh.Inv := ⟨rfl, rfl, rfl, rfl⟩

theorem Trie.insert_root (t : Trie) (w : List Char) (f : ℚ) :
    (t.insert w f).root = (t.root.insertGo w f).1 := rfl

theorem Trie.insert_words (t : Trie) (w : List Char) (f : ℚ) :
    (t.insert w f).words =
      (if (t.root.insertGo w f).2.2 then t.words else t.words + 1) := rfl

theorem Trie.insert_nodes (t : Trie) (w : List Char) (f : ℚ) :
    (t.insert w f).nodes = t.nodes + (t.root.insertGo w f).2.1 := rfl

theorem Trie.remove_root (t : Trie) (w : List Char) :
    (t.remove w).2.root = (t.root.removeGo w).1 := rfl

theorem Trie.remove_fst (t : Trie) (w : List Char) :
    (t.remove w).1 = (t.root.removeGo w).2.2.1 := rfl

theorem Trie.remove_words (t : Trie) (w : List Char) :
    (t.remove w).2.words =
      (if (t.root.removeGo w).2.2.1 then t.words - 1 else t.words) := rfl

theorem Trie.remove_nodes (t : Trie) (w : List Char) :
    (t.remove w).2.nodes = t.nodes - (t.root.removeGo w).2.2.2 := rfl

theorem Inv_insert {t : Trie} (h : t.Inv) (w : List Char) (f : ℚ) :
    (t.insert w f).Inv := by
  obtain ⟨hn, hw, hg, hwf⟩ := h
  refine ⟨?_, ?_, ?_, Trie.wf_insert t hwf w f⟩
  · rw [Trie.insert_nodes, Trie.insert_root, hn, insertGo_size w t.root f]
    push_cast
    ring
  · rw [Trie.insert_words, Trie.insert_root, hw]
    have hc := insertGo_countW w t.root f
    cases hb : (t.root.insertGo w f).2.2 with
    | true =>
      rw [hb] at hc
      simp at hc ⊢
      omega
    | false =>
      rw [hb] at hc
      rw [if_neg (by simp)]
      simp at hc
      omega
  · rw [Trie.insert_root]
    exact (insertGo_good w t.root f hg).1

theorem Inv_remove {t : Trie} (h : t.Inv) (w : List Char) :
    (t.remove w).2.Inv := by
  obtain ⟨hn, hw, hg, hwf⟩ := h
  refine ⟨?_, ?_, ?_, Trie.wf_remove t hwf w⟩
  · rw [Trie.remove_nodes, Trie.remove_root, hn]
    have hs := removeGo_size w t.root
    omega
  · rw [Trie.remove_words, Trie.remove_root, hw]
    have hc := removeGo_countW w t.root
    cases hb : (t.root.removeGo w).2.2.1 with
    | true =>
      rw [hb] at hc
      simp at hc ⊢
      omega
    | false =>
      rw [hb] at hc
      rw [if_neg (by simp)]
      simp at hc
      omega
  · rw [Trie.remove_root]
    exact (removeGo_good w t.root hg).1

theorem applyOp_state (t : Trie) (op : Op) :
    t.applyOp op = t ∨
      (∃ w f, t.applyOp op = t.insert w f) ∨ ∃ w, t.applyOp op = (t.remove w).2 := by
  cases op with
  | ins w f => exact Or.inr (Or.inl ⟨w, f, rfl⟩)
  | rem w => exact Or.inr (Or.inr ⟨w, rfl⟩)
  | comp p k =>
    left
    show (t.completeS p k).2 = t
    rw [Trie.completeS_eq]
  | stat =>
    left
    show t.statsS.2 = t
    rw [Trie.statsS_eq]
  | itemsQ =>
    left
    show t.itemsS.2 = t
    rw [Trie.itemsS_eq]

theorem Inv_applyOp {t : Trie} (h : t.Inv) (op : Op) : (t.applyOp op).Inv := by
  rcases applyOp_state t op with hs | ⟨w, f, hs⟩ | ⟨w, hs⟩ <;> rw [hs]
  · exact h
  · exact Inv_insert h w f
  · exact Inv_remove h w

theorem Inv_applyOps : ∀ (ops : List Op) (t : Trie), t.Inv → (t.applyOps ops).Inv := by
  intro ops
  induction ops with
  | nil => intro t h; exact h
  | cons op ops ih =>
    intro t h
    exact ih (t.applyOp op) (Inv_applyOp h op)

/-! ### Word survival along operation sequences -/

theorem wf_applyOp {t : Trie} (hwf : t.root.wfB = true) (op : Op) :
    (t.applyOp op).root.wfB = true := by
  rcases applyOp_state t op with hs | ⟨w, f, hs⟩ | ⟨w, hs⟩ <;> rw [hs]
  · exact hwf
  · exact Trie.wf_insert t hwf w f
  · exact Trie.wf_remove t hwf w

theorem contains_applyOps (w : List Char) :
    ∀ (ops : List Op) (t : Trie), t.root.wfB = true → t.contains w = true →
      (∀ op ∈ ops, op ≠ Op.rem w) → (t.applyOps ops).contains w = true := by
  intro ops
  induction ops with
  | nil => intro t _ hc _; exact hc
  | cons op ops ih =>
    intro t hwf hc hops
    have hwf' : (t.applyOp op).root.wfB = true := wf_applyOp hwf op
    have hc' : (t.applyOp op).contains w = true := by
      cases op with
      | ins w' f =>
        show (t.insert w' f).contains w = true
        rw [Trie.contains_isSome, Trie.weightOf_insert]
        rw [Trie.contains_isSome] at hc
        by_cases hww : w = w'
        · rw [if_pos hww]
          rfl
        · rw [if_neg hww]
          exact hc
      | rem w' =>
        have hne : w ≠ w' := by
          intro hh
          exact (hops (Op.rem w') (List.mem_cons_self _ _)) (by rw [hh])
        show (t.remove w').2.contains w = true
        rw [Trie.contains_isSome, Trie.weightOf_remove t hwf, if_neg hne]
        rw [Trie.contains_isSome] at hc
        exact hc
      | comp p k =>
        show ((t.completeS p k).2).contains w = true
        rw [Trie.completeS_eq]
        exact hc
      | stat =>
        show (t.statsS.2).contains w = true
        rw [Trie.statsS_eq]
        exact hc
      | itemsQ =>
        show (t.itemsS.2).contains w = true
        rw [Trie.itemsS_eq]
        exact hc
    exact ih (t.applyOp op) hwf' hc'
      (fun o ho => hops o (List.mem_cons_of_mem _ ho))

/-! ### Rebuilding from pair lists -/

@[simp] theorem pairLookup_nil (w : List Char) : pairLookup w [] = none := rfl

@[simp] theorem pairLookup_cons (w w' : List Char) (f : ℚ)
    (rest : List (List Char × ℚ)) :
    pairLookup w ((w', f) :: rest) =
      (if w' = w then some f else pairLookup w rest) := rfl

theorem pairLookup_eq_none {w : List Char} {l : List (List Char × ℚ)} :
    pairLookup w l = none ↔ w ∉ l.map Prod.fst := by
  induction l with
  | nil => simp
  | cons x rest ih =>
    obtain ⟨w', f⟩ := x
    by_cases h : w' = w
    · subst h
      simp
    · rw [pairLookup_cons, if_neg h, List.map_cons, List.mem_cons, ih]
      constructor
      · intro hn hor
        rcases hor with h1 | h2
        · exact h h1.symm
        · exact hn h2
      · intro hall h2
        exact hall (Or.inr h2)

theorem pairLookup_of_mem {w : List Char} {f : ℚ} {l : List (List Char × ℚ)}
    (hnd : (l.map Prod.fst).Nodup) (hm : (w, f) ∈ l) :
    pairLookup w l = some f := by
  induction l with
  | nil => simp at hm
  | cons x rest ih =>
    obtain ⟨w', f'⟩ := x
    rw [List.map_cons, List.nodup_cons] at hnd
    rw [List.mem_cons] at hm
    rcases hm with hm | hm
    · rw [Prod.mk.injEq] at hm
      rw [pairLookup_cons, if_pos hm.1.symm, hm.2]
    · have hne : ¬ w' = w := by
        intro hh
        exact hnd.1 (hh ▸ List.mem_map.2 ⟨(w, f), hm, rfl⟩)
      rw [pairLookup_cons, if_neg hne]
      exact ih hnd.2 hm

theorem pairLookup_mem {w : List Char} {f : ℚ} {l : List (List Char × ℚ)}
    (h : pairLookup w l = some f) : (w, f) ∈ l := by
  induction l with
  | nil => simp at h
  | cons x rest ih =>
    obtain ⟨w', f'⟩ := x
    by_cases hw : w' = w
    · subst hw
      rw [pairLookup_cons, if_pos rfl] at h
      cases h
      exact List.mem_cons_self _ _
    · rw [pairLookup_cons, if_neg hw] at h
      exact List.mem_cons_of_mem _ (ih h)

theorem weightOf_foldl_insert :
    ∀ (l : List (List Char × ℚ)) (t : Trie) (w : List Char),
      (l.map Prod.fst).Nodup →
      (l.foldl (fun t wf => t.insert wf.1 wf.2) t).weightOf w =
        (match pairLookup w l with
          | some f => some f
          | none => t.weightOf w) := by
  intro l
  induction l with
  | nil => intro t w _; rfl
  | cons x rest ih =>
    intro t w hnd
    obtain ⟨w₀, f₀⟩ := x
    rw [List.map_cons, List.nodup_cons] at hnd
    rw [List.foldl_cons, ih (t.insert w₀ f₀) w hnd.2]
    by_cases hw : w₀ = w
    · subst hw
      have hrest : pairLookup w₀ rest = none := pairLookup_eq_none.2 hnd.1
      rw [hrest, pairLookup_cons, if_pos rfl]
      rw [Trie.weightOf_insert, if_pos rfl]
    · rw [pairLookup_cons, if_neg hw]
      cases hr : pairLookup w rest with
      | some f => rfl
      | none =>
        rw [Trie.weightOf_insert, if_neg (fun hh => hw hh.symm)]

theorem Trie.weightOf_ofPairs (l : List (List Char × ℚ))
    (hnd : (l.map Prod.fst).Nodup) (w : List Char) :
    (Trie.ofPairs l).weightOf w = pairLookup w l := by
  unfold Trie.ofPairs
  rw [weightOf_foldl_insert l Trie.fresh w hnd]
  cases h : pairLookup w l with
  | some f => rfl
  | none => exact TrieNode.weightOf_fresh w

theorem Trie.wf_ofPairs (l : List (List Char × ℚ)) :
    (Trie.ofPairs l).root.wfB = true := by
  unfold Trie.ofPairs
  have hgen : ∀ (l' : List (List Char × ℚ)) (t : Trie), t.root.wfB = true →
      (l'.foldl (fun t wf => t.insert wf.1 wf.2) t).root.wfB = true := by
    intro l'
    induction l' with
    | nil => intro t h; exact h
    | cons x rest ih =>
      intro t h
      rw [List.foldl_cons]
      exact ih (t.insert x.1 x.2) (Trie.wf_insert t h x.1 x.2)
  exact hgen l Trie.fresh rfl

/-! ### Slicing and sortedness helpers -/

theorem pySlice_sublist {α : Type} (k : ℤ) (l : List α) :
    (pySlice k l).Sublist l := by
  unfold pySlice
  by_cases h : 0 ≤ k
  · rw [if_pos h]
    exact List.take_sublist _ l
  · rw [if_neg h]
    exact List.take_sublist _ l

theorem pySlice_nonneg {α : Type} {k : ℤ} (h : 0 ≤ k) (l : List α) :
    pySlice k l = l.take k.toNat := by
  unfold pySlice
  rw [if_pos h]

theorem pySlice_neg {α : Type} {k : ℤ} (h : k < 0) (l : List α) :
    pySlice k l = l.take (l.length - (-k).toNat) := by
  unfold pySlice
  rw [if_neg (by omega)]

/-- Strict sortedness of the sorted key list when the keys are distinct. -/
theorem pySort_keyLt_pairwise {l : List (ℚ × List Char)} (hnd : l.Nodup) :
    (pySort keyLe l).Pairwise (fun a b => keyLt a b = true) := by
  have hsorted := pySort_sorted keyLe_total (fun a b c => keyLe_trans) l
  have hnd' : (pySort keyLe l).Nodup := ((pySort_perm keyLe l).nodup_iff).2 hnd
  have hcomb := List.Pairwise.and hsorted hnd'
  refine hcomb.imp ?_
  rintro a b ⟨hle, hne⟩
  unfold keyLe at hle
  rw [Bool.not_eq_true'] at hle
  cases hab : keyLt a b with
  | true => rfl
  | false => exact absurd (keyLt_connex hab hle) hne

/-! ### Last helpers before the claims -/

theorem Trie.complete_none {t : Trie} {p : List Char}
    (h : t.root.find? p = none) (k : ℤ) : t.complete p k = [] := by
  unfold Trie.complete
  rw [h]

theorem Trie.contains_insert_self (t : Trie) (w : List Char) (f : ℚ) :
    (t.insert w f).contains w = true := by
  rw [Trie.contains_isSome, Trie.weightOf_insert, if_pos rfl]
  rfl

theorem Trie.mem_items {t : Trie} (hwf : t.root.wfB = true) (w : List Char)
    (f : ℚ) : (w, f) ∈ t.items ↔ t.weightOf w = some f := by
  unfold Trie.items
  rw [mem_itemsGo t.root [] hwf (w, f)]
  constructor
  · rintro ⟨s, hs, hw⟩
    simp only at hs hw
    rw [List.nil_append] at hs
    rw [← hs] at hw
    exact hw
  · intro h
    exact ⟨w, by rw [List.nil_append], h⟩

theorem Trie.nodup_items {t : Trie} (hwf : t.root.wfB = true) :
    (t.items.map Prod.fst).Nodup :=
  nodup_itemsGo t.root [] hwf

theorem Trie.weightOf_rebuild {t : Trie} (hwf : t.root.wfB = true)
    (w : List Char) : (Trie.ofPairs t.items).weightOf w = t.weightOf w := by
  rw [Trie.weightOf_ofPairs t.items (Trie.nodup_items hwf) w]
  cases h : t.weightOf w with
  | some f => exact pairLookup_of_mem (Trie.nodup_items hwf) ((Trie.mem_items hwf w f).2 h)
  | none =>
    rw [pairLookup_eq_none]
    intro hm
    rw [List.mem_map] at hm
    rcases hm with ⟨⟨w', f'⟩, hmem, hw'⟩
    simp only at hw'
    rw [hw'] at hmem
    rw [(Trie.mem_items hwf w f').1 hmem] at h
    cases h

theorem TrieNode.size_pos (n : TrieNode) : 1 ≤ n.size := by
  obtain ⟨cs, b, f⟩ := n
  rw [TrieNode.size_mk]
  omega

theorem iterate_dropLast_eq_take {α : Type} :
    ∀ (m : ℕ) (l : List α), List.dropLast^[m] l = l.take (l.length - m) := by
  intro m
  induction m with
  | zero =>
    intro l
    rw [Function.iterate_zero_apply, Nat.sub_zero, List.take_length]
  | succ m ih =>
    intro l
    rw [Function.iterate_succ_apply, ih l.dropLast, List.dropLast_eq_take,
      List.length_take, List.take_take]
    congr 1
    omega

/-! ### The claims -/

/-- A small concrete index (the spec's scenario: cat/car/cart), used to
instantiate the claims' hypotheses at concrete inputs. -/
def sampleTrie : Trie :=
  ((Trie.fresh.insert ['c', 'a', 't'] 5).insert ['c', 'a', 'r'] 9).insert
    ['c', 'a', 'r', 't'] 9

/-- C2: if `contains(w)` is false, `remove(w)` returns false and the whole
trie state — nodes, flags, weights, and both counters — is unchanged. -/
theorem claim_C2 (t : Trie) (w : List Char) (h : t.contains w = false) :
    t.remove w = (false, t) := by
  have h0 : t.root.containsGo w = false := by
    rw [← Trie.contains_eq]
    exact h
  have hr := removeGo_of_not_contains w t.root h0
  obtain ⟨rt, ws, ns⟩ := t
  simp only [Trie.root] at hr
  rw [show Trie.remove ⟨rt, ws, ns⟩ w =
    ((rt.removeGo w).2.2.1,
      ⟨(rt.removeGo w).1,
        if (rt.removeGo w).2.2.1 then ws - 1 else ws,
        ns - ((rt.removeGo w).2.2.2 : ℤ)⟩) from rfl, hr]
  simp

/-- C2 witness: removing the absent word "dog" from the sample trie
returns false and leaves the trie intact. -/
theorem claim_C2_witness :
    sampleTrie.contains ['d', 'o', 'g'] = false ∧
      sampleTrie.remove ['d', 'o', 'g'] = (false, sampleTrie) :=
  ⟨by decide, claim_C2 sampleTrie ['d', 'o', 'g'] (by decide)⟩

/-- C3: after any operation sequence from a fresh trie, `node_count` is the
number of reachable nodes, `word_count` the number of reachable terminal
nodes, and no non-root non-terminal reachable node is childless. -/
theorem claim_C3 (ops : List Op) :
    (Trie.fresh.applyOps ops).nodes = ((Trie.fresh.applyOps ops).root.size : ℤ) ∧
      (Trie.fresh.applyOps ops).words =
        ((Trie.fresh.applyOps ops).root.countW : ℤ) ∧
      TrieNode.goodListB (Trie.fresh.applyOps ops).root.children = true := by
  have h := Inv_applyOps ops Trie.fresh Inv_fresh
  exact ⟨h.1, h.2.1, h.2.2.1⟩

/-- C4: insertion stores the given weight under the word; re-inserting an
existing word keeps both counters, a new word raises `word_count` by one. -/
theorem claim_C4 (t : Trie) (w : List Char) (f : ℚ) :
    (t.insert w f).weightOf w = some f ∧
      (t.insert w f).contains w = true ∧
      (t.insert w f).words =
        (if t.contains w then t.words else t.words + 1) ∧
      (t.contains w = true → (t.insert w f).nodes = t.nodes) := by
  refine ⟨?_, Trie.contains_insert_self t w f, ?_, ?_⟩
  · rw [Trie.weightOf_insert, if_pos rfl]
  · rw [Trie.insert_words, insertGo_wasw, ← Trie.contains_eq]
  · intro hc
    rw [Trie.contains_eq] at hc
    unfold TrieNode.containsGo at hc
    cases hf : t.root.find? w with
    | none => rw [hf] at hc; cases hc
    | some m =>
      rw [Trie.insert_nodes, insertGo_nodes_of_find f hf]
      simp

/-- C4 witness: re-inserting "cat" with a new weight overwrites the weight
and keeps both counters. -/
theorem claim_C4_witness :
    (sampleTrie.insert ['c', 'a', 't'] 7).weightOf ['c', 'a', 't'] = some 7 ∧
      (sampleTrie.insert ['c', 'a', 't'] 7).contains ['c', 'a', 't'] = true ∧
      (sampleTrie.insert ['c', 'a', 't'] 7).words =
        (if sampleTrie.contains ['c', 'a', 't'] then sampleTrie.words
          else sampleTrie.words + 1) ∧
      (sampleTrie.contains ['c', 'a', 't'] = true →
        (sampleTrie.insert ['c', 'a', 't'] 7).nodes = sampleTrie.nodes) :=
  claim_C4 sampleTrie ['c', 'a', 't'] 7

/-- C8: the empty word is a legal key: inserting it marks the root (no new
node), removing it afterwards succeeds, and the root is never deleted, so
`node_count` stays at least 1 over any operation sequence. -/
theorem claim_C8 (t : Trie) (f : ℚ) :
    (t.insert [] f).contains [] = true ∧
      (t.insert [] f).nodes = t.nodes ∧
      (t.insert [] f).words =
        (if t.contains [] then t.words else t.words + 1) ∧
      ((t.insert [] f).remove []).1 = true ∧
      (∀ ops : List Op, 1 ≤ (Trie.fresh.applyOps ops).nodes) := by
  refine ⟨Trie.contains_insert_self t [] f, ?_, ?_, ?_, ?_⟩
  · rw [Trie.insert_nodes, insertGo_nil]
    simp
  · rw [Trie.insert_words, insertGo_wasw, ← Trie.contains_eq]
  · rw [Trie.remove_fst, Trie.insert_root, insertGo_nil]
    rw [removeGo_nil_word (TrieNode.is_word_mk _ true _)]
  · intro ops
    have h := Inv_applyOps ops Trie.fresh Inv_fresh
    have hs := TrieNode.size_pos (Trie.fresh.applyOps ops).root
    rw [h.1]
    exact_mod_cast hs

/-- C9: the queries `complete`, `stats` and `items` leave the trie state
they walked over unchanged: the state-passing traversals return exactly the
input state (and the query's pure value). -/
theorem claim_C9 (t : Trie) (p : List Char) (k : ℤ) :
    t.completeS p k = (t.complete p k, t) ∧
      t.statsS = (t.stats, t) ∧
      t.itemsS = (t.items, t) :=
  ⟨Trie.completeS_eq t p k, Trie.statsS_eq t, Trie.itemsS_eq t⟩

/-- C5: `contains(w)` is true immediately after `insert(w, f)` and stays
true across any further operations that are not `remove(w)` — other
inserts, removes of other words, and the queries. -/
theorem claim_C5 (t : Trie) (w : List Char) (f : ℚ) (ops : List Op)
    (hwf : t.root.wfB = true) (hops : ∀ op ∈ ops, op ≠ Op.rem w) :
    (t.insert w f).contains w = true ∧
      ((t.insert w f).applyOps ops).contains w = true :=
  ⟨Trie.contains_insert_self t w f,
    contains_applyOps w ops (t.insert w f) (Trie.wf_insert t hwf w f)
      (Trie.contains_insert_self t w f) hops⟩

/-- C5 witness: "dog" inserted into the sample trie survives an insert, an
unrelated remove, and all three queries. -/
theorem claim_C5_witness :
    sampleTrie.root.wfB = true ∧
      (∀ op ∈ [Op.ins ['a'] 2, Op.rem ['c', 'a', 't'], Op.comp ['d'] 5,
        Op.stat, Op.itemsQ], op ≠ Op.rem ['d', 'o', 'g']) ∧
      ((sampleTrie.insert ['d', 'o', 'g'] 1).contains ['d', 'o', 'g'] = true ∧
        ((sampleTrie.insert ['d', 'o', 'g'] 1).applyOps
          [Op.ins ['a'] 2, Op.rem ['c', 'a', 't'], Op.comp ['d'] 5,
            Op.stat, Op.itemsQ]).contains ['d', 'o', 'g'] = true) :=
  ⟨by decide, by decide,
    claim_C5 sampleTrie ['d', 'o', 'g'] 1
      [Op.ins ['a'] 2, Op.rem ['c', 'a', 't'], Op.comp ['d'] 5,
        Op.stat, Op.itemsQ] (by decide) (by decide)⟩

/-- C6: building fresh tries from any two insertion orders of the same
distinct-word pair list gives identical `complete` output for every prefix
and every `k`. -/
theorem claim_C6 (l₁ l₂ : List (List Char × ℚ)) (hperm : l₁.Perm l₂)
    (hnd : (l₁.map Prod.fst).Nodup) (p : List Char) (k : ℤ) :
    (Trie.ofPairs l₁).complete p k = (Trie.ofPairs l₂).complete p k := by
  have hnd₂ : (l₂.map Prod.fst).Nodup := ((hperm.map Prod.fst).nodup_iff).1 hnd
  apply Trie.complete_congr (Trie.wf_ofPairs l₁) (Trie.wf_ofPairs l₂)
  intro w
  rw [Trie.weightOf_ofPairs l₁ hnd w, Trie.weightOf_ofPairs l₂ hnd₂ w]
  cases h : pairLookup w l₁ with
  | some f => exact (pairLookup_of_mem hnd₂ (hperm.subset (pairLookup_mem h))).symm
  | none =>
    rw [pairLookup_eq_none] at h
    symm
    rw [pairLookup_eq_none]
    intro hm
    exact h (((hperm.map Prod.fst).mem_iff).2 hm)

/-- C6 witness: the spec's scenario pairs inserted in two different orders
complete identically on prefix "ca". -/
theorem claim_C6_witness :
    ([(['c', 'a', 't'], (5 : ℚ)), (['c', 'a', 'r'], 9),
        (['c', 'a', 'r', 't'], 9)].Perm
      [(['c', 'a', 'r', 't'], (9 : ℚ)), (['c', 'a', 't'], 5),
        (['c', 'a', 'r'], 9)]) ∧
    ([(['c', 'a', 't'], (5 : ℚ)), (['c', 'a', 'r'], 9),
        (['c', 'a', 'r', 't'], 9)].map Prod.fst).Nodup ∧
    (Trie.ofPairs [(['c', 'a', 't'], (5 : ℚ)), (['c', 'a', 'r'], 9),
        (['c', 'a', 'r', 't'], 9)]).complete ['c', 'a'] 2 =
      (Trie.ofPairs [(['c', 'a', 'r', 't'], (9 : ℚ)), (['c', 'a', 't'], 5),
        (['c', 'a', 'r'], 9)]).complete ['c', 'a'] 2 :=
  ⟨by decide, by decide,
    claim_C6 _ _ (by decide) (by decide) ['c', 'a'] 2⟩

/-- C7: rebuilding a fresh trie from `items()` reproduces `contains` and
`complete` exactly. -/
theorem claim_C7 (t : Trie) (hwf : t.root.wfB = true) :
    (∀ w, (Trie.ofPairs t.items).contains w = t.contains w) ∧
      (∀ (p : List Char) (k : ℤ),
        (Trie.ofPairs t.items).complete p k = t.complete p k) := by
  constructor
  · intro w
    rw [Trie.contains_isSome, Trie.contains_isSome, Trie.weightOf_rebuild hwf]
  · intro p k
    exact Trie.complete_congr (Trie.wf_ofPairs t.items) hwf
      (fun w => Trie.weightOf_rebuild hwf w) p k

/-- C7 witness: the sample trie rebuilt from its own items agrees on a
stored word, an absent word, and a `complete` query. -/
theorem claim_C7_witness :
    sampleTrie.root.wfB = true ∧
      (∀ w, (Trie.ofPairs sampleTrie.items).contains w = sampleTrie.contains w) ∧
      (∀ (p : List Char) (k : ℤ),
        (Trie.ofPairs sampleTrie.items).complete p k =
          sampleTrie.complete p k) :=
  ⟨by decide, (claim_C7 sampleTrie (by decide)).1, (claim_C7 sampleTrie (by decide)).2⟩

/-- C10: for negative `k`, `complete` does not clamp to empty: the slice
`heap[:k]` keeps the fully sorted match list minus its last `|k|` entries,
so the result is empty only when `|k|` reaches the number of matches. -/
theorem claim_C10 (t : Trie) (p : List Char) (k : ℤ) (hk : k < 0) :
    t.complete p k = List.dropLast^[(-k).toNat] (t.sortedMatches p) ∧
      (t.complete p k = [] ↔ (t.sortedMatches p).length ≤ (-k).toNat) := by
  have hmain : t.complete p k = List.dropLast^[(-k).toNat] (t.sortedMatches p) := by
    rw [Trie.complete_eq, pySlice_neg hk, iterate_dropLast_eq_take]
    unfold Trie.sortedMatches
    rw [← List.map_take, List.length_map]
  refine ⟨hmain, ?_⟩
  rw [hmain, iterate_dropLast_eq_take, List.take_eq_nil_iff]
  constructor
  · intro h
    rcases h with h | h
    · omega
    · rw [h]
      simp
  · intro h
    left
    omega

/-- C10 witness: on the sample trie, `complete("ca", -1)` returns the
sorted matches ["car", "cart", "cat"] minus the last entry — not empty. -/
theorem claim_C10_witness :
    ((-1 : ℤ) < 0) ∧
      (sampleTrie.complete ['c', 'a'] (-1) =
          List.dropLast^[((-(-1 : ℤ)).toNat)] (sampleTrie.sortedMatches ['c', 'a']) ∧
        (sampleTrie.complete ['c', 'a'] (-1) = [] ↔
          (sampleTrie.sortedMatches ['c', 'a']).length ≤ ((-(-1 : ℤ)).toNat))) :=
  ⟨by decide, claim_C10 sampleTrie ['c', 'a'] (-1) (by decide)⟩

/-- C1: `complete(p, k)` for `k ≥ 0` returns `min k matches` words (at most
`k`, fewer when fewer match), each extending the prefix, in strictly
descending weight with ties broken by ascending word; an absent prefix or
`k = 0` gives the empty list. -/
theorem claim_C1 (t : Trie) (p : List Char) (k : ℕ) (hwf : t.root.wfB = true) :
    (t.complete p (k : ℤ)).length = min k (t.matchKeys p).length ∧
      (∀ w ∈ t.complete p (k : ℤ), p <+: w) ∧
      (t.complete p (k : ℤ)).Pairwise t.rankLt ∧
      (t.root.find? p = none → t.complete p (k : ℤ) = []) ∧
      t.complete p (0 : ℤ) = [] := by
  refine ⟨?_, ?_, ?_, fun h => Trie.complete_none h _, ?_⟩
  · rw [Trie.complete_eq, List.length_map,
      pySlice_nonneg (Int.natCast_nonneg k), List.length_take]
    congr 1
    exact (pySort_perm keyLe _).length_eq
  · intro w hw
    rw [Trie.complete_eq, List.mem_map] at hw
    rcases hw with ⟨x, hx, hxw⟩
    have hx1 : x ∈ pySort keyLe (t.matchKeys p) := (pySlice_sublist _ _).subset hx
    have hx2 : x ∈ t.matchKeys p := (pySort_perm keyLe _).subset hx1
    rcases ((Trie.mem_matchKeys hwf p x).1 hx2).1 with ⟨s, hs⟩
    rw [← hxw, hs]
    exact List.prefix_append p s
  · rw [Trie.complete_eq, List.pairwise_map]
    apply List.Pairwise.sublist (pySlice_sublist _ _)
    have h1 := pySort_keyLt_pairwise (Trie.nodup_matchKeys hwf p)
    apply h1.imp_of_mem
    intro a b ha hb hab
    have ha' := (Trie.mem_matchKeys hwf p a).1 ((pySort_perm keyLe _).subset ha)
    have hb' := (Trie.mem_matchKeys hwf p b).1 ((pySort_perm keyLe _).subset hb)
    refine ⟨-a.1, -b.1, ha'.2, hb'.2, ?_⟩
    rw [keyLt_iff] at hab
    rcases hab with h | ⟨h, h'⟩
    · exact Or.inl (neg_lt_neg h)
    · exact Or.inr ⟨by rw [h], h'⟩
  · rw [Trie.complete_eq, pySlice_nonneg le_rfl]
    simp

/-- C1 witness: on the sample trie with prefix "ca" and k = 2, all five
conjuncts hold. -/
theorem claim_C1_witness :
    sampleTrie.root.wfB = true ∧
      ((sampleTrie.complete ['c', 'a'] ((2 : ℕ) : ℤ)).length =
          min 2 (sampleTrie.matchKeys ['c', 'a']).length ∧
        (∀ w ∈ sampleTrie.complete ['c', 'a'] ((2 : ℕ) : ℤ), ['c', 'a'] <+: w) ∧
        (sampleTrie.complete ['c', 'a'] ((2 : ℕ) : ℤ)).Pairwise sampleTrie.rankLt ∧
        (sampleTrie.root.find? ['c', 'a'] = none →
          sampleTrie.complete ['c', 'a'] ((2 : ℕ) : ℤ) = []) ∧
        sampleTrie.complete ['c', 'a'] (0 : ℤ) = []) :=
  ⟨by decide, claim_C1 sampleTrie ['c', 'a'] 2 (by decide)⟩
